import Mathlib

/-!
Verification of the timing-reconciliation pipeline of `src/scripts/contentScript.ts`
(the lyric-timeline core of the extension).  JavaScript numbers are modelled as
exact rationals; every place the source reads an optional or possibly non-finite
number through `isFiniteNumber` is modelled with `Option ℚ` (`none` = absent or
non-finite, which the source treats identically at every read site).  The one
transcendental operation, `Math.pow(x, 1.25)` inside the waveform aligner, is
modelled as an explicit function parameter `rpow54`; no theorem below depends on
its values because every verified path returns before that power is evaluated.
-/

namespace SunoLyric

/-- `Math.round` of JavaScript: round half away from zero towards +∞,
i.e. `⌊x + 1/2⌋` (this is exactly JS semantics, including negatives). -/
def jsRound (q : ℚ) : ℤ := ⌊q + 1/2⌋

/-- `roundToMillis` from the source: `Math.round(value * 1000) / 1000`. -/
def roundToMillis (q : ℚ) : ℚ := (jsRound (q * 1000) : ℚ) / 1000

/-- `Math.min(...list)` over a non-empty list, with a default for the empty
spread (the source only takes spreads of lists it has checked non-empty;
the default is irrelevant on every call path). -/
def minList (l : List ℚ) : ℚ :=
  match l with
  | [] => 0
  | x :: xs => xs.foldl min x

/-- `Math.max(...list)` over a non-empty list, default 0 for the empty spread. -/
def maxList (l : List ℚ) : ℚ :=
  match l with
  | [] => 0
  | x :: xs => xs.foldl max x

/-- `Math.max(...list)` when the emptiness of the list matters:
an empty spread yields `-Infinity`, which `isFiniteNumber` rejects;
that is modelled as `none`. -/
def maxList? (l : List ℚ) : Option ℚ :=
  match l with
  | [] => none
  | x :: xs => some (xs.foldl max x)

/-- `array.reduce((acc, v) => acc + v, 0)` as used throughout the source. -/
def sumQ (l : List ℚ) : ℚ := l.foldl (· + ·) 0

/-- Ascending numeric sort.  `Array.prototype.sort((a, b) => a - b)` sorts
ascending; over plain rational values the ascending rearrangement is unique,
so an insertion sort is an exact model. -/
def insertAsc (x : ℚ) : List ℚ → List ℚ
  | [] => [x]
  | y :: ys => if x ≤ y then x :: y :: ys else y :: insertAsc x ys

def sortAsc (l : List ℚ) : List ℚ := l.foldr insertAsc []

/-- `median` from the source. -/
def median (values : List ℚ) : ℚ :=
  if values = [] then 0
  else
    let sorted := sortAsc values
    let mid := sorted.length / 2
    if sorted.length % 2 = 0 then
      ((sorted.getD (mid - 1) 0) + (sorted.getD mid 0)) / 2
    else sorted.getD mid 0

/-! ### Text helpers -/

/-- The zero-width characters removed by `sanitizeLyricText`
(`​`–`‍`, `⁠`, `﻿`). -/
def isZeroWidthChar (c : Char) : Bool :=
  (0x200B ≤ c.toNat ∧ c.toNat ≤ 0x200D) ∨ c.toNat = 0x2060 ∨ c.toNat = 0xFEFF

/-- The JavaScript whitespace class (used by `String.prototype.trim` and `\s`). -/
def isJsWhitespace (c : Char) : Bool :=
  c = ' ' ∨ c = '\t' ∨ c = '\n' ∨ c.toNat = 0x0B ∨ c.toNat = 0x0C ∨ c = '\r' ∨
  c.toNat = 0xA0 ∨ c.toNat = 0x1680 ∨
  (0x2000 ≤ c.toNat ∧ c.toNat ≤ 0x200A) ∨
  c.toNat = 0x2028 ∨ c.toNat = 0x2029 ∨ c.toNat = 0x202F ∨
  c.toNat = 0x205F ∨ c.toNat = 0x3000 ∨ c.toNat = 0xFEFF

/-- `trim` on a character list: drop whitespace from both ends. -/
def trimChars (l : List Char) : List Char :=
  ((l.dropWhile isJsWhitespace).reverse.dropWhile isJsWhitespace).reverse

/-- `sanitizeLyricText`: remove `\r` and zero-width characters, then trim. -/
def sanitizeLyricText (text : String) : String :=
  String.mk (trimChars (text.toList.filter fun c => ¬ (c = '\r' ∨ isZeroWidthChar c)))

/-- The punctuation class stripped by `normalizeLyricForMatch`
(`[.,!?;:，。！？；：、'"“”‘’`~·\-—()\[\]{}]`). -/
def isMatchPunct (c : Char) : Bool :=
  c ∈ ['.', ',', '!', '?', ';', ':', '，', '。', '！', '？',
       '；', '：', '、', '\u0027', '"', '“', '”',
       '‘', '’', '\u0060', '~', '·', '-', '—', '(', ')',
       '[', ']', '\u007B', '\u007D']

/-- `normalizeLyricForMatch`: sanitize, lowercase, drop whitespace and the
punctuation class above.  `toLowerCase` is modelled by `Char.toLower`. -/
def normalizeLyricForMatch (text : String) : String :=
  String.mk (((sanitizeLyricText text).toList.map Char.toLower).filter
    fun c => ¬ (isJsWhitespace c ∨ isMatchPunct c))

/-- Whether `chars` starts with `seg` (segment-by-segment equality). -/
def startsWithSeg : List Char → List Char → Bool
  | _, [] => true
  | [], _ :: _ => false
  | a :: as, b :: bs => a = b ∧ startsWithSeg as bs

/-- Substring containment of character lists (`String.prototype.includes`). -/
def containsSeg (hay needle : List Char) : Bool :=
  match hay with
  | [] => needle = []
  | _ :: rest => startsWithSeg hay needle ∨ containsSeg rest needle

/-- `a.includes(b)` on strings. -/
def strIncludes (a b : String) : Bool := containsSeg a.toList b.toList

/-- `isStructureLyricLine`: the sanitized text matches `^\[.*\]$`, `^\(.*\)$`
or `^（.*）$` (`.` of JavaScript does not match line terminators, but after
sanitizing no `\r` remains, so only `\n`, ` `, ` ` are excluded). -/
def isLineTerminator (c : Char) : Bool :=
  c = '\n' ∨ c.toNat = 0x2028 ∨ c.toNat = 0x2029

def wrappedBy (s : List Char) (left right : Char) : Bool :=
  match s with
  | [] => false
  | x :: rest =>
    x = left ∧ rest.getLast? = some right ∧
      rest.dropLast.all fun c => ¬ isLineTerminator c

def isStructureLyricLine (text : String) : Bool :=
  let cleaned := (sanitizeLyricText text).toList
  wrappedBy cleaned '[' ']' ∨ wrappedBy cleaned '(' ')' ∨
    wrappedBy cleaned '（' '）'

/-- `lyricUnits`: length of the match-normalized text. -/
def lyricUnits (text : String) : ℕ := (normalizeLyricForMatch text).toList.length

/-! ### Data model -/

/-- `AlignedToken`: an atomic word-level unit; numeric fields are `Option ℚ`
because they are optional in the payload and every read is
`isFiniteNumber`-guarded. -/
structure AlignedToken where
  text : Option String := none
  word : Option String := none
  start_s : Option ℚ := none
  end_s : Option ℚ := none
deriving Repr, DecidableEq

/-- `AlignedLine` of the provider payload. -/
structure AlignedLine where
  text : Option String := none
  word : Option String := none
  start_s : Option ℚ := none
  end_s : Option ℚ := none
  sectionTag : Option String := none
  words : Option (List AlignedToken) := none
deriving Repr, DecidableEq

/-- `RawLineTiming`: intermediate line timing with optional bounds. -/
structure RawLineTiming where
  text : String
  start_s : Option ℚ := none
  end_s : Option ℚ := none
deriving Repr, DecidableEq

/-- `LineTiming`: the fully resolved output type. -/
structure LineTiming where
  text : String
  start_s : ℚ
  end_s : ℚ
deriving Repr, DecidableEq

/-- `TimingScore`. -/
structure TimingScore where
  validCount : ℕ
  monotonicBreaks : ℕ
deriving Repr, DecidableEq

/-- The duration hint exactly as JavaScript sees it.  The source reads the
hint only through `isFiniteNumber` guards, so the `toFinite?` view below is
a complete description of its behaviour. -/
inductive JsDuration where
  | undef
  | nan
  | posInf
  | negInf
  | finite (value : ℚ)
deriving Repr, DecidableEq

/-- The guarded view of a duration hint: `some v` iff `isFiniteNumber` holds. -/
def JsDuration.toFinite? : JsDuration → Option ℚ
  | .finite v => some v
  | _ => none

/-! ### estimateSecondsPerLyricUnit / estimateMissingLineDuration -/

def estimateSecondsPerLyricUnit (alignedLines : List LineTiming) : ℚ :=
  let samples :=
    ((alignedLines.filter fun line => ¬ isStructureLyricLine line.text).filterMap
      fun line =>
        let units := lyricUnits line.text
        let duration : ℚ := line.end_s - line.start_s
        if units ≤ 0 ∨ duration ≤ 1/10 then none
        else some (duration / (units : ℚ))).filter
      fun v => 0 < v
  if samples = [] then 11/50
  else min (9/20) (max (2/25) (median samples))

def estimateMissingLineDuration (line : String) (secondsPerUnit : ℚ) : ℚ :=
  if isStructureLyricLine line then 7/20
  else
    let units : ℕ := max 1 (lyricUnits line)
    min 5 (max (7/10) (units * secondsPerUnit))

/-! ### getLineText and timing derivation -/

/-- Token text: `typeof token.text === 'string' ? token.text : token.word ?? ''`. -/
def tokenText (token : AlignedToken) : String :=
  match token.text with
  | some t => t
  | none => token.word.getD ""

/-- `getLineText`: first non-empty of `line.text`, `line.word`, the joined
token texts (the `||` chain of JavaScript skips empty strings). -/
def getLineText (line : AlignedLine) : String :=
  let c1 := line.text.getD ""
  let c2 := line.word.getD ""
  let c3 := match line.words with
    | some ws => if ws ≠ [] then String.join (ws.map tokenText) else ""
    | none => ""
  let textCandidate := if c1 ≠ "" then c1 else if c2 ≠ "" then c2 else c3
  sanitizeLyricText textCandidate

/-- `deriveTimingsFromWords`. -/
def deriveTimingsFromWords (lines : List AlignedLine) : List RawLineTiming :=
  lines.map fun line =>
    let wordStarts := (line.words.getD []).filterMap (fun word => word.start_s)
    let wordEnds := (line.words.getD []).filterMap (fun word => word.end_s)
    if wordStarts ≠ [] ∧ wordEnds ≠ [] then
      { text := getLineText line
        start_s := some (minList wordStarts)
        end_s := some (maxList wordEnds) }
    else if line.start_s.isSome ∨ line.end_s.isSome then
      { text := getLineText line, start_s := line.start_s, end_s := line.end_s }
    else
      { text := getLineText line, start_s := none, end_s := none }

/-- `deriveTimingsFromLines`. -/
def deriveTimingsFromLines (lines : List AlignedLine) : List RawLineTiming :=
  lines.map fun line =>
    { text := getLineText line, start_s := line.start_s, end_s := line.end_s }

/-! ### scoreTimings / chooseTimingSource -/

/-- One step of the `scoreTimings` loop; the state is
(validCount, monotonicBreaks, previousStart). -/
def scoreStep (state : ℕ × ℕ × Option ℚ) (line : RawLineTiming) : ℕ × ℕ × Option ℚ :=
  let valid := if line.start_s.isSome ∧ line.end_s.isSome then state.1 + 1 else state.1
  match line.start_s with
  | none => (valid, state.2.1, state.2.2)
  | some s =>
    let breaks :=
      match state.2.2 with
      | some prev => if s + 1/1000 < prev then state.2.1 + 1 else state.2.1
      | none => state.2.1
    (valid, breaks, some s)

def scoreTimings (lines : List RawLineTiming) : TimingScore :=
  let state := lines.foldl scoreStep (0, 0, none)
  { validCount := state.1, monotonicBreaks := state.2.1 }

inductive TimingSource where
  | words
  | lines
deriving Repr, DecidableEq

structure ChosenTimings where
  source : TimingSource
  timings : List RawLineTiming
  score : TimingScore
deriving Repr, DecidableEq

/-- `chooseTimingSource`. -/
def chooseTimingSource (wordTimings lineTimings : List RawLineTiming) : ChosenTimings :=
  let wordScore := scoreTimings wordTimings
  let lineScore := scoreTimings lineTimings
  let total : ℕ := max wordTimings.length 1
  let wordShare : ℚ := (wordScore.validCount : ℚ) / total
  let lineShare : ℚ := (lineScore.validCount : ℚ) / total
  let wordLooksGood := wordShare ≥ 7/10 ∧ wordScore.monotonicBreaks ≤ 1
  let lineLooksGood := lineShare ≥ 7/10 ∧ lineScore.monotonicBreaks ≤ 1
  if wordLooksGood ∧ (¬ lineLooksGood ∨ wordScore.monotonicBreaks ≤ lineScore.monotonicBreaks) then
    ⟨.words, wordTimings, wordScore⟩
  else if lineLooksGood ∨ lineShare ≥ wordShare then
    ⟨.lines, lineTimings, lineScore⟩
  else
    ⟨.words, wordTimings, wordScore⟩

/-! ### Relative-timing detection and expansion -/

/-- `looksLikeRelativeLineTimings`. -/
def looksLikeRelativeLineTimings (lines : List RawLineTiming) (durationS : Option ℚ) : Bool :=
  let starts := lines.filterMap (fun line => line.start_s)
  let ends := lines.filterMap (fun line => line.end_s)
  if starts = [] ∨ ends = [] then false
  else
    let zeroStarts := (starts.filter fun start => start ≤ 1/1000).length
    let mostlyZeroStarts := (zeroStarts : ℚ) / starts.length ≥ 4/5
    let uniqueStarts := (starts.map roundToMillis).dedup.length
    let maxEnd := maxList ends
    let breaks := (scoreTimings lines).monotonicBreaks
    let durationBranch : Bool := match durationS with
      | some d => decide (10 < d) && decide (maxEnd < min 5 (d * (1/5)))
      | none => false
    if durationBranch then true
    else if mostlyZeroStarts ∧ (0 < breaks ∨ uniqueStarts ≤ 2) then true
    else false

/-- `extractRelativeDurations`. -/
def extractRelativeDurations (lines : List RawLineTiming) : List ℚ :=
  let candidates := lines.map fun line =>
    match line.start_s, line.end_s with
    | some s, some e => if 0 < e - s then some (e - s) else none
    | none, some e => if 0 < e then some e else none
    | _, _ => none
  let validDurations := (candidates.filterMap id).filter fun d => 0 < d
  let fallbackDuration := if validDurations ≠ [] then median validDurations else 1/2
  candidates.map fun duration =>
    match duration with
    | some d => if 0 < d then d else fallbackDuration
    | none => fallbackDuration

/-- The back-to-back layout loop of `expandRelativeTimings`
(texts zipped with their scaled durations, cursor threaded through). -/
def expandGo : ℚ → List (RawLineTiming × ℚ) → List RawLineTiming
  | _, [] => []
  | cursor, (line, duration) :: rest =>
    { text := line.text, start_s := some cursor, end_s := some (cursor + duration) } ::
      expandGo (cursor + duration) rest

/-- `expandRelativeTimings`. -/
def expandRelativeTimings (lines : List RawLineTiming) (durationS : Option ℚ) :
    List RawLineTiming :=
  let durations := extractRelativeDurations lines
  let totalRelative := sumQ durations
  let scale := match durationS with
    | some d => if 0 < totalRelative then d / totalRelative else 1
    | none => 1
  expandGo 0 (lines.zip (durations.map fun d => d * scale))

/-! ### Waveform-guided alignment -/

/-- `percentile` (expects an already meaningful `percent` in `[0,1]`). -/
def percentile (values : List ℚ) (percent : ℚ) : ℚ :=
  if values = [] then 0
  else
    let sorted := sortAsc values
    if percent ≤ 0 then sorted.getD 0 0
    else if 1 ≤ percent then sorted.getD (sorted.length - 1) 0
    else
      let position : ℚ := ((sorted.length - 1 : ℕ) : ℚ) * percent
      let lower := position.floor.toNat
      let upper := position.ceil.toNat
      let fraction := position - position.floor
      sorted.getD lower 0 * (1 - fraction) + sorted.getD upper 0 * fraction

/-- `smoothSeries` (moving average of the given radius). -/
def smoothSeries (values : List ℚ) (radius : ℕ) : List ℚ :=
  if radius = 0 ∨ values = [] then values
  else
    (List.range values.length).map fun index =>
      let left := index - radius
      let right := min (values.length - 1) (index + radius)
      let window := (List.range (right + 1 - left)).map fun k => values.getD (left + k) 0
      let count := window.length
      if 0 < count then sumQ window / count else 0

/-- The binary search `lowerBound` (first index whose value is not below
`target`, else the last index). -/
def lowerBoundGo (sortedValues : List ℚ) (target : ℚ) (left right : ℕ) : ℕ :=
  if h : left < right then
    let middle := (left + right) / 2
    if sortedValues.getD middle 0 < target then
      lowerBoundGo sortedValues target (middle + 1) right
    else
      lowerBoundGo sortedValues target left middle
  else left
termination_by right - left
decreasing_by
  · omega
  · omega

def lowerBound (sortedValues : List ℚ) (target : ℚ) : ℕ :=
  lowerBoundGo sortedValues target 0 (sortedValues.length - 1)

/-- The sequential minimum-gap enforcement: `for i in 1..: if b[i] < b[i-1] +
step then b[i] = b[i-1] + step`, expressed as a scan from the fixed head. -/
def minGapScan (step : ℚ) : ℚ → List ℚ → List ℚ
  | _, [] => []
  | prev, b :: rest =>
    let b' := if b < prev + step then prev + step else b
    b' :: minGapScan step b' rest

/-- The rescale-and-re-enforce loop of the waveform aligner:
`b[i] = startTime + (b[i] - startTime) * scale` followed by the same
minimum-gap fix, all in one left-to-right pass. -/
def rescaleScan (startTime scale step : ℚ) : ℚ → List ℚ → List ℚ
  | _, [] => []
  | prev, b :: rest =>
    let scaled := startTime + (b - startTime) * scale
    let b' := if scaled < prev + step then prev + step else scaled
    b' :: rescaleScan startTime scale step b' rest

/-- Replace the last element of a list (the `boundaries[len-1] = v` writes). -/
def setLast (l : List ℚ) (v : ℚ) : List ℚ :=
  match l with
  | [] => []
  | _ => l.dropLast ++ [v]

structure WaveformAlignResult where
  lines : List RawLineTiming
  usedWaveform : Bool
deriving Repr, DecidableEq

/-- `alignRelativeTimingsWithWaveform`.  `rpow54` stands for the
transcendental `Math.pow(·, 1.25)`; it is only ever applied to the lifted
emphasis values and no verified claim depends on it. -/
def alignRelativeTimingsWithWaveform (rpow54 : ℚ → ℚ) (lines : List RawLineTiming)
    (durationS : ℚ) (waveformData : Option (List (Option ℚ))) : WaveformAlignResult :=
  match waveformData with
  | none => ⟨expandRelativeTimings lines (some durationS), false⟩
  | some wf =>
    if wf.length < 2 ∨ durationS ≤ 0 then
      ⟨expandRelativeTimings lines (some durationS), false⟩
    else
      let durations := extractRelativeDurations lines
      let totalRelative := sumQ durations
      if totalRelative ≤ 0 then
        ⟨expandRelativeTimings lines (some durationS), false⟩
      else
        let sanitized := wf.map fun value =>
          match value with
          | some v => if 0 < v then v else 0
          | none => 0
        let smoothed := smoothSeries sanitized 2
        let positive := smoothed.filter fun v => 0 < v
        if positive.length < 2 then
          ⟨expandRelativeTimings lines (some durationS), false⟩
        else
          let low := percentile positive (1/5)
          let high := percentile positive (17/20)
          let activityThreshold := low + (high - low) * (11/50)
          match smoothed.findIdx? (fun v => activityThreshold ≤ v),
              smoothed.reverse.findIdx? (fun v => activityThreshold ≤ v) with
          | some firstActiveIndex, some lastActiveIndexFromEnd =>
            let lastActiveIndex := smoothed.length - 1 - lastActiveIndexFromEnd
            if lastActiveIndex ≤ firstActiveIndex then
              ⟨expandRelativeTimings lines (some durationS), false⟩
            else
              let totalBuckets : ℕ := max (smoothed.length - 1) 1
              let secondsPerBucket : ℚ := durationS / totalBuckets
              let leadInBuckets : ℕ :=
                min firstActiveIndex
                  (max 1 (jsRound ((1/5) / max secondsPerBucket (1/1000000))).toNat)
              let leadOutBuckets : ℕ :=
                max 1 (jsRound ((3/10) / max secondsPerBucket (1/1000000))).toNat
              let windowStartIndex := firstActiveIndex - leadInBuckets
              let windowEndIndex := min (smoothed.length - 1) (lastActiveIndex + leadOutBuckets)
              if windowEndIndex - windowStartIndex < 8 then
                ⟨expandRelativeTimings lines (some durationS), false⟩
              else
                let windowSeries := (smoothed.drop windowStartIndex).take
                  (windowEndIndex + 1 - windowStartIndex)
                let threshold := low + (high - low) * (3/20)
                let dynamicRange := max (high - threshold) (1/1000000)
                let weights := windowSeries.map fun value =>
                  let lifted := max (value - threshold) 0 / dynamicRange
                  1/200 + rpow54 lifted
                let cumulative := (List.range weights.length).map fun i =>
                  sumQ (weights.take (i + 1))
                let cumulativeWeight := sumQ weights
                if cumulativeWeight ≤ 0 then
                  ⟨expandRelativeTimings lines (some durationS), false⟩
                else
                  let firstBoundary := ((windowStartIndex : ℚ) / totalBuckets) * durationS
                  let windowDenominator : ℕ := max (weights.length - 1) 1
                  let innerBoundaries :=
                    (List.range durations.length).map fun i =>
                      let relativeCursor := sumQ (durations.take (i + 1))
                      let target := (relativeCursor / totalRelative) * cumulativeWeight
                      let bucketIndex := lowerBound cumulative target
                      let previousValue := if 0 < bucketIndex then
                          cumulative.getD (bucketIndex - 1) 0 else 0
                      let currentValue := cumulative.getD bucketIndex 0
                      let bucketFraction := if previousValue < currentValue then
                          (target - previousValue) / (currentValue - previousValue) else 0
                      let waveformIndex := min ((bucketIndex : ℚ) + bucketFraction)
                        (windowDenominator : ℚ)
                      let absoluteIndex := (windowStartIndex : ℚ) + waveformIndex
                      (absoluteIndex / totalBuckets) * durationS
                  let boundaries0 := setLast (firstBoundary :: innerBoundaries)
                    (((windowEndIndex : ℚ) / totalBuckets) * durationS)
                  let minStep : ℚ := 1/50
                  let boundaries1 := match boundaries0 with
                    | [] => []
                    | b0 :: rest => b0 :: minGapScan minStep b0 rest
                  let windowEndTime := ((windowEndIndex : ℚ) / totalBuckets) * durationS
                  let timelineEnd := boundaries1.getLast?.getD 0
                  let boundaries2 :=
                    if windowEndTime < timelineEnd then
                      let startTime := boundaries1.headI
                      let currentRange := max (timelineEnd - startTime) minStep
                      let targetRange := max (windowEndTime - startTime) minStep
                      let scale := targetRange / currentRange
                      let scaled := match boundaries1 with
                        | [] => []
                        | b0 :: rest => b0 :: rescaleScan startTime scale minStep b0 rest
                      setLast scaled windowEndTime
                    else boundaries1
                  ⟨(List.range lines.length).map fun index =>
                      let line := lines.getD index ⟨"", none, none⟩
                      let start := boundaries2.getD index 0
                      let stop := max (boundaries2.getD (index + 1) 0) (start + minStep)
                      { text := line.text, start_s := some start, end_s := some stop },
                    true⟩
          | _, _ =>
            ⟨expandRelativeTimings lines (some durationS), false⟩

/-! ### Scale inference -/

def scaleCandidates : List ℚ := [1, 1/10, 1/100, 1/1000, 10, 100]

/-- One step of the best-candidate fold of `inferScale`; the accumulator's
second component is `none` for the initial `POSITIVE_INFINITY` best-diff. -/
def inferScaleStep (maxTime d : ℚ) (acc : ℚ × Option ℚ) (scale : ℚ) : ℚ × Option ℚ :=
  let diff := |maxTime * scale - d| / d
  match acc.2 with
  | none => (scale, some diff)
  | some best => if diff < best then (scale, some diff) else acc

/-- `inferScale`. -/
def inferScale (times : List ℚ) (durationS : Option ℚ) : ℚ :=
  let maxTime? := maxList? times
  let absentBranch :=
    match maxTime? with
    | some m => if 10000 < m then 1/1000 else if 1000 < m then 1/1000 else 1
    | none => 1
  match durationS, maxTime? with
  | some d, some m =>
    if d ≤ 0 then absentBranch
    else
      let best := scaleCandidates.foldl (inferScaleStep m d) (1, none)
      match best.2 with
      | some bestDiff => if bestDiff ≤ 1/4 then best.1 else 1
      | none => 1
  | _, _ => absentBranch

/-! ### normalizeTimings -/

/-- The `reduce` collecting every finite timestamp, start before end per line. -/
def collectTimes (lines : List RawLineTiming) : List ℚ :=
  lines.foldl
    (fun acc line => acc ++ line.start_s.toList ++ line.end_s.toList) []

/-- The repeated `if (v > durationS) v = durationS` clamp of the source
(applied only when the duration is a finite number). -/
def clampToDuration (durationS : Option ℚ) (v : ℚ) : ℚ :=
  match durationS with
  | some d => if d < v then d else v
  | none => v

/-- The repeated `if (end < start + 0.02) end = start + 0.02` enforcement. -/
def enforceMinGap (start stop : ℚ) : ℚ :=
  if stop < start + 1/50 then start + 1/50 else stop

/-- The body of one iteration of the `normalizeTimings` loop: from the
previous committed (unrounded, clamped) start, produce this line's committed
start and end (still unrounded).  The lookup of the next finite start scans
exactly the remaining lines, as the source's inner `for` does. -/
def normalizeStep (durationS : Option ℚ) (offset fallbackDuration : ℚ)
    (line : RawLineTiming) (rest : List RawLineTiming) (lastStart : ℚ) : ℚ × ℚ :=
  let rawStart := line.start_s.map (· + offset)
  let start0 := rawStart.getD lastStart
  let start1 := if start0 < lastStart then lastStart else start0
  let endCandidate := line.end_s.map (· + offset)
  let end1 : ℚ := match endCandidate with
    | some e =>
      if e ≤ start1 then
        match (rest.filterMap (fun l => l.start_s)).head? with
        | some candidateStart =>
          if start1 < candidateStart + offset then candidateStart + offset
          else start1 + fallbackDuration
        | none => start1 + fallbackDuration
      else e
    | none =>
      match (rest.filterMap (fun l => l.start_s)).head? with
      | some candidateStart =>
        if start1 < candidateStart + offset then candidateStart + offset
        else start1 + fallbackDuration
      | none => start1 + fallbackDuration
  let start2 := clampToDuration durationS start1
  let end2 := clampToDuration durationS end1
  let end3 := enforceMinGap start2 end2
  (start2, end3)

/-- The main loop of `normalizeTimings`: commit the rounded step values and
carry the unrounded clamped start forward. -/
def normalizeGo (durationS : Option ℚ) (offset fallbackDuration : ℚ) :
    List RawLineTiming → ℚ → List LineTiming
  | [], _ => []
  | line :: rest, lastStart =>
    let step := normalizeStep durationS offset fallbackDuration line rest lastStart
    { text := line.text, start_s := roundToMillis step.1, end_s := roundToMillis step.2 } ::
      normalizeGo durationS offset fallbackDuration rest step.1

/-- The non-negative shift of `normalizeTimings`: `minStart < 0 ? -minStart : 0`
over the finite scaled starts (`minStart` is 0 when no start is finite). -/
def normalizeOffset (scaledLines : List RawLineTiming) : ℚ :=
  let starts := scaledLines.filterMap (fun line => line.start_s)
  let minStart := if starts ≠ [] then minList starts else 0
  if minStart < 0 then -minStart else 0

/-- `normalizeTimings`. -/
def normalizeTimings (lines : List RawLineTiming) (durationS : Option ℚ) :
    List LineTiming :=
  let times := collectTimes lines
  if times = [] then []
  else
    let scale := inferScale times durationS
    let scaledLines := lines.map fun line =>
      { text := line.text
        start_s := line.start_s.map (· * scale)
        end_s := line.end_s.map (· * scale) : RawLineTiming }
    let offset := normalizeOffset scaledLines
    let durations := (scaledLines.filterMap fun line =>
        match line.start_s, line.end_s with
        | some s, some e => some (e - s)
        | _, _ => none).filter fun duration => 0 < duration
    let fallbackDuration := if durations ≠ [] then median durations else 5/2
    normalizeGo durationS offset fallbackDuration scaledLines 0

/-! ### buildLineTimingsFromStarts -/

/-- Input entries for the start-only rebuild (`{ text, start_s : number }`;
the model keeps the number exact, so the source's `isFiniteNumber` default
to 0 is the identity on every reachable value). -/
structure StartEntry where
  text : String
  start_s : ℚ
deriving Repr, DecidableEq

/-- The sanitizing pass of `buildLineTimingsFromStarts`: skip empty texts,
clamp starts to be non-negative, monotone, and at most the duration;
store the start rounded to milliseconds while the carried state stays
unrounded, exactly as the source does. -/
def buildStartStep (durationS : Option ℚ) (index : ℕ) (lastStart start_raw : ℚ) : ℚ :=
  let start0 := max 0 start_raw
  let start1 := if 0 < index ∧ start0 < lastStart then lastStart else start0
  clampToDuration durationS start1

def buildStartsGo (durationS : Option ℚ) : List StartEntry → ℕ → ℚ → List StartEntry
  | [], _, _ => []
  | line :: rest, index, lastStart =>
    if line.text = "" then buildStartsGo durationS rest (index + 1) lastStart
    else
      let start2 := buildStartStep durationS index lastStart line.start_s
      { text := line.text, start_s := roundToMillis start2 } ::
        buildStartsGo durationS rest (index + 1) start2

/-- The end-assignment pass: each line's end is the next stored start, the
last line falls back to `start + fallbackDuration`; ends are clamped to the
duration and pushed up to `start + 0.02`. -/
def buildEndsGo (durationS : Option ℚ) (fallbackDuration : ℚ) :
    List StartEntry → List LineTiming
  | [] => []
  | line :: rest =>
    let end0 : ℚ := match rest.head? with
      | some next => next.start_s
      | none => line.start_s + fallbackDuration
    let end2 := enforceMinGap line.start_s (clampToDuration durationS end0)
    { text := line.text, start_s := line.start_s, end_s := roundToMillis end2 } ::
      buildEndsGo durationS fallbackDuration rest

/-- `buildLineTimingsFromStarts`. -/
def buildLineTimingsFromStarts (lines : List StartEntry) (durationS : Option ℚ) :
    List LineTiming :=
  if lines = [] then []
  else
    let normalizedStarts := lines.map fun line =>
      { text := sanitizeLyricText line.text, start_s := line.start_s : StartEntry }
    let startDiffs := (List.zipWith
        (fun next current => next.start_s - current.start_s)
        (normalizedStarts.drop 1) normalizedStarts).filter fun diff => 1/20 < diff
    let fallbackDuration := if startDiffs ≠ [] then median startDiffs else 5/2
    let sanitizedStarts := buildStartsGo durationS normalizedStarts 0 0
    if sanitizedStarts = [] then []
    else buildEndsGo durationS fallbackDuration sanitizedStarts

/-! ### repairMissingPromptLines -/

/-- `parsePromptLines`: split on newlines, sanitize, drop empties (the `\r`
of a `\r\n` separator is removed by `sanitizeLyricText` either way). -/
def parsePromptLines (prompt : String) : List String :=
  ((prompt.split (fun c => c = '\n')).map sanitizeLyricText).filter
    fun line => line ≠ ""

/-- The inner forward search of the matcher: scan the unconsumed normalized
prompt lines from the cursor for the first equal / containing / contained
candidate, skipping empty candidates. -/
def matchFrom (needle : String) : List String → ℕ → Option ℕ
  | [], _ => none
  | candidate :: rest, index =>
    if candidate = "" then matchFrom needle rest (index + 1)
    else if candidate = needle ∨ strIncludes candidate needle ∨
        strIncludes needle candidate then some index
    else matchFrom needle rest (index + 1)

/-- The matcher loop over the resolved lines, threading the advancing prompt
cursor (`promptCursor` is only moved past a successful match). -/
def matchGo (promptNormalized : List String) : List StartEntry → ℕ → List (Option ℕ)
  | [], _ => []
  | line :: rest, promptCursor =>
    let normalizedLine := normalizeLyricForMatch line.text
    if normalizedLine = "" then none :: matchGo promptNormalized rest promptCursor
    else
      match matchFrom normalizedLine (promptNormalized.drop promptCursor) promptCursor with
      | some index => some index :: matchGo promptNormalized rest (index + 1)
      | none => none :: matchGo promptNormalized rest promptCursor

/-- The matched-reference-index computation of `repairMissingPromptLines`
as a stand-alone stage (used verbatim by the repair function below). -/
def repairMatchedIndexes (alignedLines : List LineTiming) (prompt : String) :
    List (Option ℕ) :=
  let promptLines := parsePromptLines prompt
  let alignedStarts := alignedLines.map fun line =>
    { text := sanitizeLyricText line.text, start_s := line.start_s : StartEntry }
  matchGo (promptLines.map normalizeLyricForMatch) alignedStarts 0

/-- The cursor-threaded layout of the synthesized entries inside
`pushMissingLines`. -/
def expandStarts : ℚ → List (String × ℚ) → List StartEntry
  | _, [] => []
  | cursor, (line, duration) :: rest =>
    ⟨line, cursor⟩ :: expandStarts (cursor + duration) rest

/-- `pushMissingLines`, returning the entries to append and the inserted
count instead of mutating the target array. -/
def pushMissingLines (secondsPerUnit : ℚ) (missingLines : List String)
    (windowStart windowEnd : ℚ) : List StartEntry × ℕ :=
  match missingLines.getLast? with
  | none => ([], 0)
  | some lastMissing =>
    let minimumDuration : ℚ := 9/50
    let available := max 0 (windowEnd - windowStart)
    if available ≤ minimumDuration then
      ([⟨lastMissing, max 0 (windowEnd - minimumDuration)⟩], 1)
    else
      let expectedA := missingLines.map fun line =>
        max minimumDuration (estimateMissingLineDuration line secondsPerUnit)
      let totalA := sumQ expectedA
      let expectedB := if available < totalA then
          expectedA.map fun e => max minimumDuration (e * (available / totalA))
        else expectedA
      let totalB := if available < totalA then sumQ expectedB else totalA
      let expectedC := if available < totalB then
          let overflow := totalB - available
          let adjustable := sumQ (expectedB.map fun e => max 0 (e - minimumDuration))
          if 0 < adjustable ∧ 0 < overflow then
            expectedB.map fun e =>
              let room := max 0 (e - minimumDuration)
              e - min room ((room / adjustable) * overflow)
          else expectedB
        else expectedB
      let totalC := if available < totalB then sumQ expectedC else totalB
      let cursor0 := max windowStart (windowEnd - totalC)
      let entries := expandStarts cursor0 (missingLines.zip expectedC)
      (entries, missingLines.length)

/-- The leading-gap block of the repair loop: when the first matched resolved
line matched a positive reference index, synthesize entries for the earlier
reference lines.  The state is (rebuilt starts in reverse, inserted count). -/
def repairLeadBlock (promptLines : List String) (secondsPerUnit : ℚ)
    (firstMatchedLineIndex : ℕ) (line : StartEntry)
    (currentMatchedPrompt : Option ℕ) (index : ℕ)
    (state : List StartEntry × ℕ) : List StartEntry × ℕ :=
  match currentMatchedPrompt with
  | some cm =>
    if index = firstMatchedLineIndex ∧ 0 < cm then
      let leadingCandidates := promptLines.take cm
      let currentNorm := normalizeLyricForMatch line.text
      let missingLeading := leadingCandidates.filter fun candidate =>
        normalizeLyricForMatch candidate ≠ currentNorm
      if missingLeading ≠ [] then
        let windowEnd := line.start_s
        let estimatedLeadWindow :=
          max (6/5) ((missingLeading.length : ℚ) * (9/10))
        let windowStart := max 0 (windowEnd - estimatedLeadWindow)
        let pushed := pushMissingLines secondsPerUnit missingLeading
          windowStart windowEnd
        (pushed.1.reverse ++ state.1, state.2 + pushed.2)
      else state
    else state
  | none => state

/-- The interior-gap block of the repair loop: when consecutive matched
reference indices skip lines, synthesize the skipped reference lines into
the window between the previous rebuilt start and the current start. -/
def repairGapBlock (promptLines : List String) (secondsPerUnit : ℚ)
    (line : StartEntry) (currentMatchedPrompt previousMatchedPrompt : Option ℕ)
    (state : List StartEntry × ℕ) : List StartEntry × ℕ :=
  match currentMatchedPrompt, previousMatchedPrompt with
  | some cm, some pm =>
    if pm + 1 < cm then
      let missingCandidates := (promptLines.take cm).drop (pm + 1)
      let currentNorm := normalizeLyricForMatch line.text
      let previousNorm := match state.1.head? with
        | some previous => normalizeLyricForMatch previous.text
        | none => ""
      let missingLines := missingCandidates.filter fun missingLine =>
        let normalizedMissing := normalizeLyricForMatch missingLine
        normalizedMissing ≠ "" ∧ normalizedMissing ≠ previousNorm ∧
          normalizedMissing ≠ currentNorm
      if missingLines ≠ [] then
        let windowEnd := line.start_s
        let windowStart := match state.1.head? with
          | some previous => previous.start_s
          | none =>
            max 0 (windowEnd - max 1 ((missingLines.length : ℚ) * (9/10)))
        let pushed := pushMissingLines secondsPerUnit missingLines
          windowStart windowEnd
        (pushed.1.reverse ++ state.1, state.2 + pushed.2)
      else state
    else state
  | _, _ => state

/-- One iteration of the main repair loop.  State: current index, the last
matched prompt index (`none` models the initial `-1`), the rebuilt starts in
reverse, and the inserted count. -/
def repairGo (promptLines : List String) (secondsPerUnit : ℚ)
    (firstMatchedLineIndex : ℕ) :
    List (StartEntry × Option ℕ) → ℕ → Option ℕ → List StartEntry → ℕ →
      List StartEntry × ℕ
  | [], _, _, rebuiltRev, insertedCount => (rebuiltRev.reverse, insertedCount)
  | (line, currentMatchedPrompt) :: rest, index, previousMatchedPrompt,
      rebuiltRev, insertedCount =>
    let stateA := repairLeadBlock promptLines secondsPerUnit firstMatchedLineIndex
      line currentMatchedPrompt index (rebuiltRev, insertedCount)
    let stateB := repairGapBlock promptLines secondsPerUnit line
      currentMatchedPrompt previousMatchedPrompt stateA
    let nextPrevious := if currentMatchedPrompt.isSome then currentMatchedPrompt
      else previousMatchedPrompt
    repairGo promptLines secondsPerUnit firstMatchedLineIndex rest (index + 1)
      nextPrevious (line :: stateB.1) stateB.2

structure RepairResult where
  lines : List LineTiming
  insertedCount : ℕ
deriving Repr, DecidableEq

/-- `repairMissingPromptLines`. -/
def repairMissingPromptLines (alignedLines : List LineTiming)
    (prompt : Option String) (durationS : Option ℚ) : RepairResult :=
  let promptFalsy : Bool := match prompt with
    | none => true
    | some p => p = ""
  if promptFalsy ∨ alignedLines.length < 2 then ⟨alignedLines, 0⟩
  else
    let p := prompt.getD ""
    let promptLines := parsePromptLines p
    if promptLines = [] then ⟨alignedLines, 0⟩
    else
      let secondsPerUnit := estimateSecondsPerLyricUnit alignedLines
      let alignedStarts := alignedLines.map fun line =>
        { text := sanitizeLyricText line.text, start_s := line.start_s : StartEntry }
      let matchedPromptIndexes := repairMatchedIndexes alignedLines p
      match matchedPromptIndexes.findIdx? (fun idx => idx.isSome) with
      | none => ⟨alignedLines, 0⟩
      | some firstMatchedLineIndex =>
        let result := repairGo promptLines secondsPerUnit firstMatchedLineIndex
          (alignedStarts.zip matchedPromptIndexes) 0 none [] 0
        if result.2 = 0 then ⟨alignedLines, 0⟩
        else ⟨buildLineTimingsFromStarts result.1 durationS, result.2⟩

/-! ### The orchestrating pipeline -/

inductive RelativeMethod where
  | nomethod
  | linear
  | waveform
deriving Repr, DecidableEq

structure BuildTimingsResult where
  lines : List LineTiming
  source : TimingSource
  score : TimingScore
  scale : ℚ
  usedRelativeExpansion : Bool
  relativeMethod : RelativeMethod
deriving Repr, DecidableEq

/-- The selection / detection / expansion prefix of
`buildAlignedLyricsTimings` (everything before the final normalization). -/
def selectAndExpandTimings (alignedLyrics : List AlignedLine) (durationS : Option ℚ)
    (waveformData : Option (List (Option ℚ))) (rpow54 : ℚ → ℚ) :
    List RawLineTiming × TimingSource × TimingScore × Bool × RelativeMethod :=
  let wordTimings := deriveTimingsFromWords alignedLyrics
  let lineTimings := deriveTimingsFromLines alignedLyrics
  let chosen := chooseTimingSource wordTimings lineTimings
  let usedRelativeExpansion := looksLikeRelativeLineTimings chosen.timings durationS
  let expanded : List RawLineTiming × RelativeMethod :=
    if usedRelativeExpansion then
      match durationS with
      | some d =>
        if 0 < d then
          let aligned := alignRelativeTimingsWithWaveform rpow54 chosen.timings d
            waveformData
          (aligned.lines,
            if aligned.usedWaveform then RelativeMethod.waveform
            else RelativeMethod.linear)
        else (expandRelativeTimings chosen.timings durationS, RelativeMethod.linear)
      | none => (expandRelativeTimings chosen.timings durationS, RelativeMethod.linear)
    else (chosen.timings, RelativeMethod.nomethod)
  (expanded.1, chosen.source, chosen.score, usedRelativeExpansion, expanded.2)

/-- `buildAlignedLyricsTimings`. -/
def buildAlignedLyricsTimings (alignedLyrics : List AlignedLine) (durationS : Option ℚ)
    (waveformData : Option (List (Option ℚ))) (rpow54 : ℚ → ℚ) : BuildTimingsResult :=
  let staged := selectAndExpandTimings alignedLyrics durationS waveformData rpow54
  let baseTimings := staged.1
  let allTimes := collectTimes baseTimings
  let scale := if allTimes ≠ [] then inferScale allTimes durationS else 1
  { lines := normalizeTimings baseTimings durationS
    source := staged.2.1
    score := staged.2.2.1
    scale := scale
    usedRelativeExpansion := staged.2.2.2.1
    relativeMethod := staged.2.2.2.2 }

/-- The committed pipeline of `fetchLyrics` for a track with aligned lyrics:
build the normalized timings, then repair against the prompt; the repaired
lines are what is delivered (and cached). -/
def runPipeline (alignedLyrics : List AlignedLine) (prompt : Option String)
    (durationHint : JsDuration) (waveformData : Option (List (Option ℚ)))
    (rpow54 : ℚ → ℚ) : List LineTiming :=
  let durationS := durationHint.toFinite?
  let timingResult := buildAlignedLyricsTimings alignedLyrics durationS waveformData rpow54
  let repairResult := repairMissingPromptLines timingResult.lines prompt durationS
  repairResult.lines

/-- View of a committed line as a raw timing (for re-feeding the normalizer). -/
def LineTiming.toRaw (l : LineTiming) : RawLineTiming :=
  ⟨l.text, some l.start_s, some l.end_s⟩

/-! ## Lemmas about millisecond rounding -/

theorem roundToMillis_mono {a b : ℚ} (h : a ≤ b) : roundToMillis a ≤ roundToMillis b := by
  unfold roundToMillis jsRound
  have hf : ⌊a * 1000 + 1/2⌋ ≤ ⌊b * 1000 + 1/2⌋ := Int.floor_mono (by linarith)
  have hq : ((⌊a * 1000 + 1/2⌋ : ℤ) : ℚ) ≤ ((⌊b * 1000 + 1/2⌋ : ℤ) : ℚ) := by
    exact_mod_cast hf
  linarith

theorem roundToMillis_add_fifty (x : ℚ) :
    roundToMillis (x + 1/50) = roundToMillis x + 1/50 := by
  unfold roundToMillis jsRound
  have h : (x + 1/50) * 1000 + 1/2 = (x * 1000 + 1/2) + ((20 : ℤ) : ℚ) := by
    push_cast; ring
  rw [h, Int.floor_add_int]
  push_cast; ring

theorem roundToMillis_le (x : ℚ) : roundToMillis x ≤ x + 1/2000 := by
  unfold roundToMillis jsRound
  have hf : ((⌊x * 1000 + 1/2⌋ : ℤ) : ℚ) ≤ x * 1000 + 1/2 := Int.floor_le _
  linarith

theorem roundToMillis_nonneg {x : ℚ} (h : 0 ≤ x) : 0 ≤ roundToMillis x := by
  unfold roundToMillis jsRound
  have hf : (0 : ℤ) ≤ ⌊x * 1000 + 1/2⌋ := Int.le_floor.mpr (by push_cast; linarith)
  have hq : (0 : ℚ) ≤ ((⌊x * 1000 + 1/2⌋ : ℤ) : ℚ) := by exact_mod_cast hf
  positivity

theorem roundToMillis_idem (x : ℚ) :
    roundToMillis (roundToMillis x) = roundToMillis x := by
  unfold roundToMillis jsRound
  have h1000 : ((⌊x * 1000 + 1/2⌋ : ℤ) : ℚ) / 1000 * 1000 = ((⌊x * 1000 + 1/2⌋ : ℤ) : ℚ) := by
    field_simp
  rw [h1000]
  have h : ((⌊x * 1000 + 1/2⌋ : ℤ) : ℚ) + 1/2 = ((1 : ℚ)/2) + ((⌊x * 1000 + 1/2⌋ : ℤ) : ℚ) := by
    ring
  rw [h, Int.floor_add_int]
  norm_num

/-! ## Lemmas about list folds -/

theorem foldl_min_le_init (l : List ℚ) (a : ℚ) : l.foldl min a ≤ a := by
  induction l generalizing a with
  | nil => simp
  | cons x xs ih =>
    simp only [List.foldl_cons]
    exact le_trans (ih (min a x)) (min_le_left a x)

theorem foldl_min_le_mem {l : List ℚ} {x : ℚ} (hx : x ∈ l) (a : ℚ) :
    l.foldl min a ≤ x := by
  induction l generalizing a with
  | nil => cases hx
  | cons y ys ih =>
    simp only [List.foldl_cons]
    rcases List.mem_cons.mp hx with h | h
    · subst h
      exact le_trans (foldl_min_le_init ys (min a x)) (min_le_right a x)
    · exact ih h (min a y)

theorem minList_le {l : List ℚ} {x : ℚ} (hx : x ∈ l) : minList l ≤ x := by
  cases l with
  | nil => cases hx
  | cons y ys =>
    unfold minList
    rcases List.mem_cons.mp hx with h | h
    · subst h; exact foldl_min_le_init ys x
    · exact foldl_min_le_mem h y

/-! ## Lemmas about the clamp and gap helpers -/

theorem clampToDuration_le {d v : ℚ} : clampToDuration (some d) v ≤ d := by
  dsimp only [clampToDuration]
  split <;> linarith

theorem le_clampToDuration {durationS : Option ℚ} {w v : ℚ}
    (hD : ∀ d, durationS = some d → w ≤ d) (hv : w ≤ v) :
    w ≤ clampToDuration durationS v := by
  cases durationS with
  | none => exact hv
  | some d =>
    dsimp only [clampToDuration]
    split
    · exact hD d rfl
    · exact hv

theorem clampToDuration_nonneg {durationS : Option ℚ} {v : ℚ} (hv : 0 ≤ v)
    (hD : ∀ d, durationS = some d → 0 ≤ d) : 0 ≤ clampToDuration durationS v :=
  le_clampToDuration hD hv

theorem enforceMinGap_ge (start stop : ℚ) : start + 1/50 ≤ enforceMinGap start stop := by
  unfold enforceMinGap
  split <;> linarith

theorem enforceMinGap_le {start stop m : ℚ} (hstop : stop ≤ m)
    (hstart : start + 1/50 ≤ m) : enforceMinGap start stop ≤ m := by
  unfold enforceMinGap
  split <;> linarith

/-! ## Invariants of the normalizeTimings loop -/

theorem normalizeStep_fst_ge (durationS : Option ℚ) (offset fallbackDuration : ℚ)
    (line : RawLineTiming) (rest : List RawLineTiming) (lastStart : ℚ)
    (hD : ∀ d, durationS = some d → lastStart ≤ d) :
    lastStart ≤ (normalizeStep durationS offset fallbackDuration line rest lastStart).1 := by
  unfold normalizeStep
  dsimp only
  refine le_clampToDuration hD ?_
  split <;> linarith

theorem normalizeStep_fst_le (durationS : Option ℚ) (offset fallbackDuration : ℚ)
    (line : RawLineTiming) (rest : List RawLineTiming) (lastStart d : ℚ)
    (hd : durationS = some d) :
    (normalizeStep durationS offset fallbackDuration line rest lastStart).1 ≤ d := by
  subst hd
  unfold normalizeStep
  dsimp only
  exact clampToDuration_le

theorem normalizeStep_fst_nonneg (durationS : Option ℚ) (offset fallbackDuration : ℚ)
    (line : RawLineTiming) (rest : List RawLineTiming) (lastStart : ℚ)
    (hlast : 0 ≤ lastStart) (hstart : ∀ s ∈ line.start_s, 0 ≤ s + offset)
    (hD : ∀ d, durationS = some d → 0 ≤ d) :
    0 ≤ (normalizeStep durationS offset fallbackDuration line rest lastStart).1 := by
  unfold normalizeStep
  dsimp only
  refine clampToDuration_nonneg ?_ hD
  cases hs : line.start_s with
  | none =>
    simp only [hs, Option.map_none', Option.getD_none]
    split <;> linarith
  | some v =>
    have hv : 0 ≤ v + offset := hstart v (by simp [hs])
    simp only [hs, Option.map_some', Option.getD_some]
    split <;> linarith

theorem normalizeStep_gap (durationS : Option ℚ) (offset fallbackDuration : ℚ)
    (line : RawLineTiming) (rest : List RawLineTiming) (lastStart : ℚ) :
    (normalizeStep durationS offset fallbackDuration line rest lastStart).1 + 1/50 ≤
      (normalizeStep durationS offset fallbackDuration line rest lastStart).2 := by
  unfold normalizeStep
  dsimp only
  exact enforceMinGap_ge _ _

theorem normalizeStep_snd_le (durationS : Option ℚ) (offset fallbackDuration : ℚ)
    (line : RawLineTiming) (rest : List RawLineTiming) (lastStart d : ℚ)
    (hd : durationS = some d) :
    (normalizeStep durationS offset fallbackDuration line rest lastStart).2 ≤ d + 1/50 := by
  subst hd
  unfold normalizeStep
  dsimp only
  refine enforceMinGap_le (le_trans clampToDuration_le (by linarith)) ?_
  have h := clampToDuration_le (d := d)
    (v := if (line.start_s.map (· + offset)).getD lastStart < lastStart then lastStart
      else (line.start_s.map (· + offset)).getD lastStart)
  linarith

theorem normalizeGo_texts (durationS : Option ℚ) (offset fallbackDuration : ℚ)
    (ls : List RawLineTiming) (lastStart : ℚ) :
    (normalizeGo durationS offset fallbackDuration ls lastStart).map (fun x => x.text) =
      ls.map (fun x => x.text) := by
  induction ls generalizing lastStart with
  | nil => rfl
  | cons line rest ih =>
    simp only [normalizeGo, List.map_cons, ih]

theorem normalizeGo_head_start (durationS : Option ℚ) (offset fallbackDuration : ℚ)
    (ls : List RawLineTiming) (lastStart : ℚ)
    (hD : ∀ d, durationS = some d → lastStart ≤ d) :
    ∀ y ∈ (normalizeGo durationS offset fallbackDuration ls lastStart).head?,
      roundToMillis lastStart ≤ y.start_s := by
  cases ls with
  | nil => intro y hy; simp [normalizeGo] at hy
  | cons line rest =>
    intro y hy
    simp only [normalizeGo, List.head?_cons, Option.mem_def, Option.some.injEq] at hy
    subst hy
    exact roundToMillis_mono (normalizeStep_fst_ge _ _ _ _ _ _ hD)

theorem normalizeGo_chain (durationS : Option ℚ) (offset fallbackDuration : ℚ)
    (ls : List RawLineTiming) (lastStart : ℚ) :
    List.Chain' (fun a b : LineTiming => a.start_s ≤ b.start_s)
      (normalizeGo durationS offset fallbackDuration ls lastStart) := by
  induction ls generalizing lastStart with
  | nil => simp [normalizeGo]
  | cons line rest ih =>
    rw [normalizeGo, List.chain'_cons']
    refine ⟨?_, ih _⟩
    intro b hb
    have hstep : ∀ d, durationS = some d →
        (normalizeStep durationS offset fallbackDuration line rest lastStart).1 ≤ d :=
      fun d hd => normalizeStep_fst_le _ _ _ _ _ _ _ hd
    exact normalizeGo_head_start _ _ _ _ _ hstep b hb

theorem normalizeGo_gap (durationS : Option ℚ) (offset fallbackDuration : ℚ)
    (ls : List RawLineTiming) (lastStart : ℚ) :
    ∀ x ∈ normalizeGo durationS offset fallbackDuration ls lastStart,
      x.start_s + 1/50 ≤ x.end_s := by
  induction ls generalizing lastStart with
  | nil => intro x hx; simp [normalizeGo] at hx
  | cons line rest ih =>
    intro x hx
    rw [normalizeGo] at hx
    rcases List.mem_cons.mp hx with h | h
    · subst h
      dsimp only
      rw [← roundToMillis_add_fifty]
      exact roundToMillis_mono (normalizeStep_gap _ _ _ _ _ _)
    · exact ih _ x h

theorem normalizeGo_bounds (d : ℚ) (offset fallbackDuration : ℚ)
    (ls : List RawLineTiming) (lastStart : ℚ) (hd : 0 < d)
    (hlast0 : 0 ≤ lastStart) (hlastD : lastStart ≤ d)
    (hstarts : ∀ line ∈ ls, ∀ s ∈ line.start_s, 0 ≤ s + offset) :
    ∀ x ∈ normalizeGo (some d) offset fallbackDuration ls lastStart,
      0 ≤ x.start_s ∧ x.start_s ≤ d + 1/2000 ∧ 0 ≤ x.end_s ∧ x.end_s ≤ d + 21/1000 := by
  induction ls generalizing lastStart with
  | nil => intro x hx; simp [normalizeGo] at hx
  | cons line rest ih =>
    intro x hx
    have hfst0 : 0 ≤ (normalizeStep (some d) offset fallbackDuration line rest lastStart).1 :=
      normalizeStep_fst_nonneg _ _ _ _ _ _ hlast0
        (hstarts line (List.mem_cons_self _ _)) (fun e he => by
          injection he with he
          subst he; exact le_of_lt hd)
    have hfstD : (normalizeStep (some d) offset fallbackDuration line rest lastStart).1 ≤ d :=
      normalizeStep_fst_le _ _ _ _ _ _ _ rfl
    rw [normalizeGo] at hx
    rcases List.mem_cons.mp hx with h | h
    · subst h
      dsimp only
      have hsnd1 := normalizeStep_gap (some d) offset fallbackDuration line rest lastStart
      have hsnd2 := normalizeStep_snd_le (some d) offset fallbackDuration line rest lastStart d rfl
      refine ⟨roundToMillis_nonneg hfst0, ?_, roundToMillis_nonneg (by linarith), ?_⟩
      · have := roundToMillis_le (normalizeStep (some d) offset fallbackDuration line rest lastStart).1
        linarith
      · have := roundToMillis_le (normalizeStep (some d) offset fallbackDuration line rest lastStart).2
        linarith
    · exact ih _ hfst0 hfstD (fun l hl => hstarts l (List.mem_cons_of_mem _ hl)) x h

theorem normalizeOffset_nonneg_start {sl : List RawLineTiming} {line : RawLineTiming}
    {s : ℚ} (hline : line ∈ sl) (hs : line.start_s = some s) :
    0 ≤ s + normalizeOffset sl := by
  unfold normalizeOffset
  dsimp only
  have hmem : s ∈ sl.filterMap (fun l => l.start_s) :=
    List.mem_filterMap.mpr ⟨line, hline, hs⟩
  have hne : sl.filterMap (fun l => l.start_s) ≠ [] := by
    intro h; rw [h] at hmem; cases hmem
  rw [if_pos hne]
  have hmin := minList_le hmem
  split <;> linarith

/-! ## Invariants of normalizeTimings -/

theorem normalizeTimings_pairwise (lines : List RawLineTiming) (durationS : Option ℚ) :
    List.Pairwise (· ≤ ·)
      ((normalizeTimings lines durationS).map (fun x => x.start_s)) := by
  unfold normalizeTimings
  dsimp only
  split
  · simp
  · exact List.chain'_iff_pairwise.mp
      ((List.chain'_map _).mpr (normalizeGo_chain _ _ _ _ _))

theorem normalizeTimings_gap (lines : List RawLineTiming) (durationS : Option ℚ) :
    ∀ x ∈ normalizeTimings lines durationS, x.start_s + 1/50 ≤ x.end_s := by
  unfold normalizeTimings
  dsimp only
  split
  · intro x hx; cases hx
  · exact normalizeGo_gap _ _ _ _ _

theorem normalizeTimings_bounds (lines : List RawLineTiming) (D : ℚ) (hD : 0 < D) :
    ∀ x ∈ normalizeTimings lines (some D),
      0 ≤ x.start_s ∧ x.start_s ≤ D + 1/2000 ∧ 0 ≤ x.end_s ∧ x.end_s ≤ D + 21/1000 := by
  unfold normalizeTimings
  dsimp only
  split
  · intro x hx; cases hx
  · refine normalizeGo_bounds D _ _ _ _ hD le_rfl (le_of_lt hD) ?_
    intro line hline s hs
    exact normalizeOffset_nonneg_start hline hs

theorem normalizeTimings_texts (lines : List RawLineTiming) (durationS : Option ℚ)
    (h : collectTimes lines ≠ []) :
    (normalizeTimings lines durationS).map (fun x => x.text) =
      lines.map (fun x => x.text) := by
  unfold normalizeTimings
  rw [if_neg h, normalizeGo_texts, List.map_map]
  rfl

theorem collectTimes_ne_nil {lines : List RawLineTiming} {line : RawLineTiming}
    (hline : line ∈ lines) (h : line.start_s.isSome ∨ line.end_s.isSome) :
    collectTimes lines ≠ [] := by
  have key : ∀ (ls : List RawLineTiming) (acc : List ℚ),
      ls.foldl (fun acc line => acc ++ line.start_s.toList ++ line.end_s.toList) acc =
        acc ++ ls.foldl (fun acc line => acc ++ line.start_s.toList ++ line.end_s.toList) [] := by
    intro ls
    induction ls with
    | nil => intro acc; simp
    | cons x xs ih =>
      intro acc
      simp only [List.foldl_cons]
      rw [ih (acc ++ x.start_s.toList ++ x.end_s.toList),
        ih ([] ++ x.start_s.toList ++ x.end_s.toList)]
      simp [List.append_assoc]
  unfold collectTimes
  induction lines with
  | nil => cases hline
  | cons x xs ih =>
    simp only [List.foldl_cons]
    rw [key]
    rcases List.mem_cons.mp hline with heq | hmem
    · subst heq
      rcases h with hs | he
      · rcases Option.isSome_iff_exists.mp hs with ⟨v, hv⟩
        simp [hv]
      · rcases Option.isSome_iff_exists.mp he with ⟨v, hv⟩
        simp [hv]
    · intro hcontra
      rcases List.append_eq_nil.mp hcontra with ⟨h1, h2⟩
      exact (ih hmem) h2

/-! ## Invariants of buildLineTimingsFromStarts -/

theorem buildStartStep_ge (durationS : Option ℚ) (index : ℕ) (lastStart sr : ℚ)
    (hidx : 0 < index) (hD : ∀ d, durationS = some d → lastStart ≤ d) :
    lastStart ≤ buildStartStep durationS index lastStart sr := by
  unfold buildStartStep
  dsimp only
  refine le_clampToDuration hD ?_
  split_ifs with h
  · exact le_rfl
  · exact le_of_not_lt (not_and.mp h hidx)

theorem buildStartStep_le (durationS : Option ℚ) (index : ℕ) (lastStart sr d : ℚ)
    (hd : durationS = some d) : buildStartStep durationS index lastStart sr ≤ d := by
  subst hd
  unfold buildStartStep
  dsimp only
  exact clampToDuration_le

theorem buildStartStep_nonneg (durationS : Option ℚ) (index : ℕ) (lastStart sr : ℚ)
    (hlast : 0 ≤ lastStart) (hD : ∀ d, durationS = some d → 0 ≤ d) :
    0 ≤ buildStartStep durationS index lastStart sr := by
  unfold buildStartStep
  dsimp only
  refine clampToDuration_nonneg ?_ hD
  split
  · exact hlast
  · exact le_max_left 0 sr

theorem buildStartsGo_texts (durationS : Option ℚ) (ls : List StartEntry) (index : ℕ)
    (lastStart : ℚ) :
    (buildStartsGo durationS ls index lastStart).map (fun e => e.text) =
      (ls.map (fun e => e.text)).filter (fun t => t ≠ "") := by
  induction ls generalizing index lastStart with
  | nil => rfl
  | cons line rest ih =>
    by_cases h : line.text = ""
    · rw [buildStartsGo, if_pos h, ih]
      simp [List.filter_cons, h]
    · rw [buildStartsGo, if_neg h]
      simp only [List.map_cons, List.filter_cons]
      rw [ih]
      simp [h]

theorem buildStartsGo_head (durationS : Option ℚ) (ls : List StartEntry) (index : ℕ)
    (lastStart : ℚ) (hidx : 0 < index) (hD : ∀ d, durationS = some d → lastStart ≤ d) :
    ∀ y ∈ (buildStartsGo durationS ls index lastStart).head?,
      roundToMillis lastStart ≤ y.start_s := by
  induction ls generalizing index lastStart with
  | nil => intro y hy; cases hy
  | cons line rest ih =>
    intro y hy
    by_cases h : line.text = ""
    · rw [buildStartsGo, if_pos h] at hy
      exact ih (index + 1) lastStart (Nat.succ_pos _) hD y hy
    · rw [buildStartsGo, if_neg h] at hy
      simp only [List.head?_cons, Option.mem_def, Option.some.injEq] at hy
      subst hy
      exact roundToMillis_mono (buildStartStep_ge _ _ _ _ hidx hD)

theorem buildStartsGo_chain (durationS : Option ℚ) (ls : List StartEntry) (index : ℕ)
    (lastStart : ℚ) :
    List.Chain' (fun a b : StartEntry => a.start_s ≤ b.start_s)
      (buildStartsGo durationS ls index lastStart) := by
  induction ls generalizing index lastStart with
  | nil => simp [buildStartsGo]
  | cons line rest ih =>
    by_cases h : line.text = ""
    · rw [buildStartsGo, if_pos h]
      exact ih _ _
    · rw [buildStartsGo, if_neg h, List.chain'_cons']
      refine ⟨?_, ih _ _⟩
      intro b hb
      exact buildStartsGo_head _ _ _ _ (Nat.succ_pos _)
        (fun d hd => buildStartStep_le _ _ _ _ _ hd) b hb

theorem buildStartsGo_roundMs (durationS : Option ℚ) (ls : List StartEntry) (index : ℕ)
    (lastStart : ℚ) :
    ∀ e ∈ buildStartsGo durationS ls index lastStart, ∃ q, e.start_s = roundToMillis q := by
  induction ls generalizing index lastStart with
  | nil => intro e he; cases he
  | cons line rest ih =>
    intro e he
    by_cases h : line.text = ""
    · rw [buildStartsGo, if_pos h] at he
      exact ih _ _ e he
    · rw [buildStartsGo, if_neg h] at he
      rcases List.mem_cons.mp he with heq | hmem
      · subst heq
        exact ⟨_, rfl⟩
      · exact ih _ _ e hmem

theorem buildStartsGo_bounds (durationS : Option ℚ) (ls : List StartEntry) (index : ℕ)
    (lastStart D : ℚ) (hdur : durationS = some D) (hD : 0 < D)
    (hlast0 : 0 ≤ lastStart) (hlastD : lastStart ≤ D) :
    ∀ e ∈ buildStartsGo durationS ls index lastStart,
      0 ≤ e.start_s ∧ e.start_s ≤ D + 1/2000 := by
  induction ls generalizing index lastStart with
  | nil => intro e he; cases he
  | cons line rest ih =>
    intro e he
    have h0 : 0 ≤ buildStartStep durationS index lastStart line.start_s :=
      buildStartStep_nonneg _ _ _ _ hlast0 (fun d hd => by
        rw [hdur] at hd; injection hd with hd; subst hd; exact le_of_lt hD)
    have hle : buildStartStep durationS index lastStart line.start_s ≤ D :=
      buildStartStep_le _ _ _ _ _ hdur
    by_cases h : line.text = ""
    · rw [buildStartsGo, if_pos h] at he
      exact ih _ _ hlast0 hlastD e he
    · rw [buildStartsGo, if_neg h] at he
      rcases List.mem_cons.mp he with heq | hmem
      · subst heq
        dsimp only
        refine ⟨roundToMillis_nonneg h0, ?_⟩
        have := roundToMillis_le (buildStartStep durationS index lastStart line.start_s)
        linarith
      · exact ih _ _ h0 hle e hmem

theorem buildEndsGo_starts (durationS : Option ℚ) (fallbackDuration : ℚ)
    (ls : List StartEntry) :
    (buildEndsGo durationS fallbackDuration ls).map (fun x => x.start_s) =
      ls.map (fun e => e.start_s) := by
  induction ls with
  | nil => rfl
  | cons line rest ih =>
    simp only [buildEndsGo, List.map_cons, ih]

theorem buildEndsGo_texts (durationS : Option ℚ) (fallbackDuration : ℚ)
    (ls : List StartEntry) :
    (buildEndsGo durationS fallbackDuration ls).map (fun x => x.text) =
      ls.map (fun e => e.text) := by
  induction ls with
  | nil => rfl
  | cons line rest ih =>
    simp only [buildEndsGo, List.map_cons, ih]

theorem buildEndsGo_gap (durationS : Option ℚ) (fallbackDuration : ℚ)
    (ls : List StartEntry)
    (hround : ∀ e ∈ ls, ∃ q, e.start_s = roundToMillis q) :
    ∀ x ∈ buildEndsGo durationS fallbackDuration ls, x.start_s + 1/50 ≤ x.end_s := by
  induction ls with
  | nil => intro x hx; cases hx
  | cons line rest ih =>
    intro x hx
    rw [buildEndsGo] at hx
    rcases List.mem_cons.mp hx with heq | hmem
    · subst heq
      dsimp only
      rcases hround line (List.mem_cons_self _ _) with ⟨q, hq⟩
      have hgap := enforceMinGap_ge line.start_s
        (clampToDuration durationS (match rest.head? with
          | some next => next.start_s
          | none => line.start_s + fallbackDuration))
      have hmono := roundToMillis_mono hgap
      have heq50 : roundToMillis (line.start_s + 1/50) = line.start_s + 1/50 := by
        rw [hq, roundToMillis_add_fifty, roundToMillis_idem]
      linarith [heq50 ▸ hmono]
    · exact ih (fun e he => hround e (List.mem_cons_of_mem _ he)) x hmem

theorem buildEndsGo_bounds (fallbackDuration : ℚ) (ls : List StartEntry) (D : ℚ)
    (_hD : 0 < D) (hstarts : ∀ e ∈ ls, 0 ≤ e.start_s ∧ e.start_s ≤ D + 1/2000) :
    ∀ x ∈ buildEndsGo (some D) fallbackDuration ls,
      0 ≤ x.start_s ∧ x.start_s ≤ D + 1/2000 ∧ 0 ≤ x.end_s ∧ x.end_s ≤ D + 21/1000 := by
  induction ls with
  | nil => intro x hx; cases hx
  | cons line rest ih =>
    intro x hx
    rcases hstarts line (List.mem_cons_self _ _) with ⟨h0, hDle⟩
    rw [buildEndsGo] at hx
    rcases List.mem_cons.mp hx with heq | hmem
    · subst heq
      dsimp only
      have hclamp : clampToDuration (some D) (match rest.head? with
          | some next => next.start_s
          | none => line.start_s + fallbackDuration) ≤ D := clampToDuration_le
      have hgapub : enforceMinGap line.start_s (clampToDuration (some D) (match rest.head? with
          | some next => next.start_s
          | none => line.start_s + fallbackDuration)) ≤ D + 1/2000 + 1/50 :=
        enforceMinGap_le (by linarith) (by linarith)
      have hgaplb := enforceMinGap_ge line.start_s (clampToDuration (some D)
        (match rest.head? with
          | some next => next.start_s
          | none => line.start_s + fallbackDuration))
      refine ⟨h0, hDle, roundToMillis_nonneg (by linarith), ?_⟩
      have := roundToMillis_le (enforceMinGap line.start_s (clampToDuration (some D)
        (match rest.head? with
          | some next => next.start_s
          | none => line.start_s + fallbackDuration)))
      linarith
    · exact ih (fun e he => hstarts e (List.mem_cons_of_mem _ he)) x hmem

theorem buildLineTimingsFromStarts_pairwise (ls : List StartEntry)
    (durationS : Option ℚ) :
    List.Pairwise (· ≤ ·)
      ((buildLineTimingsFromStarts ls durationS).map (fun x => x.start_s)) := by
  unfold buildLineTimingsFromStarts
  dsimp only
  split
  · simp
  · split
    · simp
    · rw [buildEndsGo_starts]
      exact List.chain'_iff_pairwise.mp
        ((List.chain'_map _).mpr (buildStartsGo_chain _ _ _ _))

theorem buildLineTimingsFromStarts_gap (ls : List StartEntry) (durationS : Option ℚ) :
    ∀ x ∈ buildLineTimingsFromStarts ls durationS, x.start_s + 1/50 ≤ x.end_s := by
  unfold buildLineTimingsFromStarts
  dsimp only
  split
  · intro x hx; cases hx
  · split
    · intro x hx; cases hx
    · exact buildEndsGo_gap _ _ _ (buildStartsGo_roundMs _ _ _ _)

theorem buildLineTimingsFromStarts_bounds (ls : List StartEntry) (D : ℚ) (hD : 0 < D) :
    ∀ x ∈ buildLineTimingsFromStarts ls (some D),
      0 ≤ x.start_s ∧ x.start_s ≤ D + 1/2000 ∧ 0 ≤ x.end_s ∧ x.end_s ≤ D + 21/1000 := by
  unfold buildLineTimingsFromStarts
  dsimp only
  split
  · intro x hx; cases hx
  · split
    · intro x hx; cases hx
    · exact buildEndsGo_bounds _ _ D hD
        (buildStartsGo_bounds _ _ _ _ D rfl hD le_rfl (le_of_lt hD))

theorem buildLineTimingsFromStarts_texts (ls : List StartEntry) (durationS : Option ℚ) :
    (buildLineTimingsFromStarts ls durationS).map (fun x => x.text) =
      ((ls.map (fun l => sanitizeLyricText l.text)).filter (fun t => t ≠ "")) := by
  have hkey := buildStartsGo_texts durationS
    (ls.map fun line => ({ text := sanitizeLyricText line.text, start_s := line.start_s } : StartEntry))
    0 0
  rw [List.map_map] at hkey
  by_cases hnil : ls = []
  · subst hnil; rfl
  · unfold buildLineTimingsFromStarts
    rw [if_neg hnil]
    dsimp only
    split
    · next hsan =>
      rw [hsan] at hkey
      simpa using hkey.symm
    · rw [buildEndsGo_texts]
      exact hkey

/-! ## Sanitize idempotence -/

theorem dropWhile_idem (p : Char → Bool) (l : List Char) :
    (l.dropWhile p).dropWhile p = l.dropWhile p := by
  induction l with
  | nil => rfl
  | cons a t ih =>
    rw [List.dropWhile_cons]
    by_cases h : p a
    · rw [if_pos h]
      exact ih
    · rw [if_neg h, List.dropWhile_cons, if_neg h]

theorem dropWhile_eq_self_of_prefix {p : Char → Bool} {b a : List Char}
    (hpre : b <+: a) (ha : a.dropWhile p = a) : b.dropWhile p = b := by
  cases b with
  | nil => rfl
  | cons x t =>
    rcases hpre with ⟨s, hs⟩
    subst hs
    rw [List.cons_append, List.dropWhile_cons] at ha
    by_cases hx : p x
    · rw [if_pos hx] at ha
      have hlen := congrArg List.length ha
      have hle := (List.dropWhile_sublist (l := t ++ s) p).length_le
      simp only [List.length_cons] at hlen
      omega
    · rw [List.dropWhile_cons, if_neg hx]

theorem trimChars_sublist (l : List Char) : (trimChars l).Sublist l := by
  unfold trimChars
  have h1 := List.dropWhile_sublist (l := l) isJsWhitespace
  have h2 := List.dropWhile_sublist
    (l := (l.dropWhile isJsWhitespace).reverse) isJsWhitespace
  have h3 := h2.reverse
  rw [List.reverse_reverse] at h3
  exact h3.trans h1

theorem trimChars_idem (l : List Char) : trimChars (trimChars l) = trimChars l := by
  have hpre : trimChars l <+: l.dropWhile isJsWhitespace := by
    have hsuf := List.dropWhile_suffix
      (l := (l.dropWhile isJsWhitespace).reverse) isJsWhitespace
    have h := hsuf.reverse
    rw [List.reverse_reverse] at h
    exact h
  have ha : (l.dropWhile isJsWhitespace).dropWhile isJsWhitespace =
      l.dropWhile isJsWhitespace := dropWhile_idem _ _
  have claim1 : (trimChars l).dropWhile isJsWhitespace = trimChars l :=
    dropWhile_eq_self_of_prefix hpre ha
  have claim2 : (trimChars l).reverse.dropWhile isJsWhitespace = (trimChars l).reverse := by
    unfold trimChars
    rw [List.reverse_reverse]
    exact dropWhile_idem _ _
  calc trimChars (trimChars l)
      = (((trimChars l).dropWhile isJsWhitespace).reverse.dropWhile
          isJsWhitespace).reverse := rfl
    _ = ((trimChars l).reverse.dropWhile isJsWhitespace).reverse := by rw [claim1]
    _ = ((trimChars l).reverse).reverse := by rw [claim2]
    _ = trimChars l := List.reverse_reverse _

theorem sanitizeLyricText_idem (t : String) :
    sanitizeLyricText (sanitizeLyricText t) = sanitizeLyricText t := by
  have key :
      trimChars ((trimChars (t.toList.filter fun c => ¬ (c = '\r' ∨ isZeroWidthChar c))).filter
        fun c => ¬ (c = '\r' ∨ isZeroWidthChar c)) =
      trimChars (t.toList.filter fun c => ¬ (c = '\r' ∨ isZeroWidthChar c)) := by
    have hfil : (trimChars (t.toList.filter fun c => ¬ (c = '\r' ∨ isZeroWidthChar c))).filter
        (fun c => ¬ (c = '\r' ∨ isZeroWidthChar c)) =
        trimChars (t.toList.filter fun c => ¬ (c = '\r' ∨ isZeroWidthChar c)) := by
      refine List.filter_eq_self.mpr ?_
      intro a ha
      have hmem : a ∈ t.toList.filter fun c => ¬ (c = '\r' ∨ isZeroWidthChar c) :=
        (trimChars_sublist _).subset ha
      simpa using List.of_mem_filter hmem
    rw [hfil, trimChars_idem]
  exact congrArg String.mk key

/-! ## Structure of the repair loop -/

theorem repairLeadBlock_shape (promptLines : List String) (secondsPerUnit : ℚ)
    (firstMatchedLineIndex : ℕ) (line : StartEntry) (cm? : Option ℕ) (index : ℕ)
    (state : List StartEntry × ℕ) :
    ∃ u, (repairLeadBlock promptLines secondsPerUnit firstMatchedLineIndex line
      cm? index state).1 = u ++ state.1 := by
  unfold repairLeadBlock
  cases cm? with
  | none => exact ⟨[], rfl⟩
  | some cm =>
    dsimp only
    split_ifs
    · exact ⟨_, rfl⟩
    · exact ⟨[], rfl⟩
    · exact ⟨[], rfl⟩

theorem repairGapBlock_shape (promptLines : List String) (secondsPerUnit : ℚ)
    (line : StartEntry) (cm? pm? : Option ℕ) (state : List StartEntry × ℕ) :
    ∃ u, (repairGapBlock promptLines secondsPerUnit line cm? pm? state).1 =
      u ++ state.1 := by
  unfold repairGapBlock
  cases cm? with
  | none => exact ⟨[], rfl⟩
  | some cm =>
    cases pm? with
    | none => exact ⟨[], rfl⟩
    | some pm =>
      dsimp only
      split_ifs
      · exact ⟨_, rfl⟩
      · exact ⟨[], rfl⟩
      · exact ⟨[], rfl⟩

theorem repairGo_sublist (promptLines : List String) (secondsPerUnit : ℚ)
    (firstMatchedLineIndex : ℕ) (entries : List (StartEntry × Option ℕ)) :
    ∀ (index : ℕ) (prev : Option ℕ) (rev : List StartEntry) (ins : ℕ),
      ∃ added,
        (repairGo promptLines secondsPerUnit firstMatchedLineIndex entries index
          prev rev ins).1 = rev.reverse ++ added ∧
        (entries.map fun e => e.1.text).Sublist (added.map fun e => e.text) := by
  induction entries with
  | nil =>
    intro index prev rev ins
    exact ⟨[], by simp [repairGo], by simp⟩
  | cons e rest ih =>
    intro index prev rev ins
    obtain ⟨line, cm⟩ := e
    rw [repairGo]
    obtain ⟨u1, hu1⟩ := repairLeadBlock_shape promptLines secondsPerUnit
      firstMatchedLineIndex line cm index (rev, ins)
    obtain ⟨u2, hu2⟩ := repairGapBlock_shape promptLines secondsPerUnit line cm prev
      (repairLeadBlock promptLines secondsPerUnit firstMatchedLineIndex line cm index
        (rev, ins))
    obtain ⟨added', h1', h2'⟩ := ih (index + 1)
      (if cm.isSome then cm else prev)
      (line :: (repairGapBlock promptLines secondsPerUnit line cm prev
        (repairLeadBlock promptLines secondsPerUnit firstMatchedLineIndex line cm index
          (rev, ins))).1)
      (repairGapBlock promptLines secondsPerUnit line cm prev
        (repairLeadBlock promptLines secondsPerUnit firstMatchedLineIndex line cm index
          (rev, ins))).2
    refine ⟨u1.reverse ++ u2.reverse ++ line :: added', ?_, ?_⟩
    · rw [h1', hu2, hu1]
      simp [List.reverse_append, List.append_assoc]
    · simp only [List.map_append, List.map_cons]
      have hc : (line.text :: rest.map fun e => e.1.text).Sublist
          (line.text :: added'.map fun e => e.text) := h2'.cons₂ _
      exact hc.trans (List.sublist_append_right _ _)

theorem repairGo_consecutive (promptLines : List String) (secondsPerUnit : ℚ)
    (entries : List (StartEntry × Option ℕ)) :
    ∀ (k : ℕ) (prev : Option ℕ) (rev : List StartEntry) (ins : ℕ),
      entries.map (fun e => e.2) = (List.range' k entries.length).map some →
      prev = (if k = 0 then none else some (k - 1)) →
      repairGo promptLines secondsPerUnit 0 entries k prev rev ins =
        (rev.reverse ++ entries.map (fun e => e.1), ins) := by
  induction entries with
  | nil =>
    intro k prev rev ins _ _
    simp [repairGo]
  | cons e rest ih =>
    intro k prev rev ins hmatch hprev
    obtain ⟨line, cm⟩ := e
    simp only [List.map_cons, List.length_cons, List.range'_succ] at hmatch
    obtain ⟨hcm, hrest⟩ : cm = some k ∧
        (rest.map fun e => e.2) = (List.range' (k + 1) rest.length).map some := by
      exact ⟨by injection hmatch, by injection hmatch⟩
    subst hcm
    rw [repairGo]
    have hA : repairLeadBlock promptLines secondsPerUnit 0 line (some k) k (rev, ins) =
        (rev, ins) := by
      simp only [repairLeadBlock]
      rw [if_neg]
      rintro ⟨h1, h2⟩
      omega
    have hB : repairGapBlock promptLines secondsPerUnit line (some k) prev (rev, ins) =
        (rev, ins) := by
      by_cases hk : k = 0
      · have hprev' : prev = none := by rw [hprev]; simp [hk]
        subst hk
        simp only [hprev', repairGapBlock]
      · have hprev' : prev = some (k - 1) := by rw [hprev]; simp [hk]
        simp only [hprev', repairGapBlock]
        rw [if_neg (by omega)]
    rw [hA, hB]
    have hnext := ih (k + 1) (some k) (line :: rev) ins hrest (by simp)
    simp only [Option.isSome_some, if_true]
    rw [hnext]
    simp

theorem matchGo_length (promptNormalized : List String) (ls : List StartEntry)
    (cursor : ℕ) : (matchGo promptNormalized ls cursor).length = ls.length := by
  induction ls generalizing cursor with
  | nil => rfl
  | cons line rest ih =>
    rw [matchGo]
    by_cases h : normalizeLyricForMatch line.text = ""
    · rw [if_pos h]
      simp [ih]
    · rw [if_neg h]
      cases hmf : matchFrom (normalizeLyricForMatch line.text)
          (promptNormalized.drop cursor) cursor with
      | none => simp [ih]
      | some idx => simp [ih]

theorem repairMatchedIndexes_length (alignedLines : List LineTiming) (p : String) :
    (repairMatchedIndexes alignedLines p).length = alignedLines.length := by
  unfold repairMatchedIndexes
  rw [matchGo_length, List.length_map]

/-- The repair stage either returns its input untouched (with inserted count
zero), or a rebuild of a start-only sequence that contains every original
line's sanitized text in order, with a nonzero inserted count: it never
produces anything else. -/
theorem repairMissingPromptLines_cases (alignedLines : List LineTiming)
    (prompt : Option String) (durationS : Option ℚ) :
    repairMissingPromptLines alignedLines prompt durationS =
        ⟨alignedLines, 0⟩ ∨
      ∃ starts n, repairMissingPromptLines alignedLines prompt durationS =
          ⟨buildLineTimingsFromStarts starts durationS, n⟩ ∧ n ≠ 0 ∧
        (alignedLines.map fun l => sanitizeLyricText l.text).Sublist
          (starts.map fun e => e.text) := by
  unfold repairMissingPromptLines
  dsimp only
  split
  · left; rfl
  · split
    · left; rfl
    · split
      · left; rfl
      · split
        · left; rfl
        · next h =>
          right
          refine ⟨_, _, rfl, h, ?_⟩
          obtain ⟨added, h1, h2⟩ := repairGo_sublist
            (parsePromptLines (prompt.getD ""))
            (estimateSecondsPerLyricUnit alignedLines) _
            ((alignedLines.map fun line =>
              ({ text := sanitizeLyricText line.text, start_s := line.start_s } :
                StartEntry)).zip
              (repairMatchedIndexes alignedLines (prompt.getD ""))) 0 none [] 0
          rw [h1]
          simp only [List.reverse_nil, List.nil_append]
          have hfst : (((alignedLines.map fun line =>
              ({ text := sanitizeLyricText line.text, start_s := line.start_s } :
                StartEntry)).zip
              (repairMatchedIndexes alignedLines (prompt.getD ""))).map
                fun e => e.1.text) =
              alignedLines.map fun l => sanitizeLyricText l.text := by
            have hmap : (((alignedLines.map fun line =>
                ({ text := sanitizeLyricText line.text, start_s := line.start_s } :
                  StartEntry)).zip
                (repairMatchedIndexes alignedLines (prompt.getD ""))).map Prod.fst) =
                alignedLines.map fun line =>
                  ({ text := sanitizeLyricText line.text, start_s := line.start_s } :
                    StartEntry) := by
              refine List.map_fst_zip _ _ ?_
              rw [repairMatchedIndexes_length, List.length_map]
            calc (((alignedLines.map fun line =>
                ({ text := sanitizeLyricText line.text, start_s := line.start_s } :
                  StartEntry)).zip
                (repairMatchedIndexes alignedLines (prompt.getD ""))).map
                  fun e => e.1.text)
                = ((((alignedLines.map fun line =>
                    ({ text := sanitizeLyricText line.text, start_s := line.start_s } :
                      StartEntry)).zip
                    (repairMatchedIndexes alignedLines (prompt.getD ""))).map
                      Prod.fst).map fun e => e.text) := by
                  rw [List.map_map]; rfl
              _ = alignedLines.map fun l => sanitizeLyricText l.text := by
                  rw [hmap, List.map_map]; rfl
          rw [hfst] at h2
          exact h2

/-- When the inserted count is zero the input is returned untouched. -/
theorem repairMissingPromptLines_inserted_zero (alignedLines : List LineTiming)
    (prompt : Option String) (durationS : Option ℚ)
    (h : (repairMissingPromptLines alignedLines prompt durationS).insertedCount = 0) :
    (repairMissingPromptLines alignedLines prompt durationS).lines = alignedLines := by
  rcases repairMissingPromptLines_cases alignedLines prompt durationS with
    hc | ⟨st, n, hc, hn, hsub⟩
  · rw [hc]
  · rw [hc] at h
    exact absurd h hn

/-- If the greedy matcher matched the i-th resolved line to reference line i
for every i, repair is a strict no-op. -/
theorem repairMissingPromptLines_noop (aligned : List LineTiming) (p : String)
    (d : Option ℚ)
    (hmatch : repairMatchedIndexes aligned p =
      (List.range aligned.length).map some) :
    repairMissingPromptLines aligned (some p) d = ⟨aligned, 0⟩ := by
  unfold repairMissingPromptLines
  dsimp only
  simp only [Option.getD_some]
  split
  · rfl
  · next hcond =>
    split
    · rfl
    · have hlen : 1 ≤ aligned.length := by
        rcases Nat.lt_or_ge aligned.length 2 with hl | hl
        · exact absurd (Or.inr hl) hcond
        · omega
      have hfind : (repairMatchedIndexes aligned p).findIdx?
          (fun idx => idx.isSome) = some 0 := by
        rw [hmatch]
        obtain ⟨m, hm⟩ : ∃ m, aligned.length = m + 1 :=
          ⟨aligned.length - 1, by omega⟩
        rw [hm, List.range_succ_eq_map]
        simp [List.findIdx?_cons]
      rw [hmatch] at hfind ⊢
      rw [hfind]
      dsimp only
      have hzlen : ((aligned.map fun line =>
          ({ text := sanitizeLyricText line.text, start_s := line.start_s } :
            StartEntry)).zip
          ((List.range aligned.length).map some)).length = aligned.length := by
        simp
      have hz : (((aligned.map fun line =>
          ({ text := sanitizeLyricText line.text, start_s := line.start_s } :
            StartEntry)).zip
          ((List.range aligned.length).map some)).map fun e => e.2) =
          (List.range' 0 (((aligned.map fun line =>
            ({ text := sanitizeLyricText line.text, start_s := line.start_s } :
              StartEntry)).zip
            ((List.range aligned.length).map some)).length)).map some := by
        rw [hzlen, ← List.range_eq_range']
        refine List.map_snd_zip _ _ ?_
        simp
      rw [repairGo_consecutive _ _ _ 0 none [] 0 hz (by simp)]
      simp

theorem repairMissingPromptLines_no_foothold (aligned : List LineTiming) (p : String)
    (d : Option ℚ)
    (hnone : (repairMatchedIndexes aligned p).findIdx? (fun idx => idx.isSome) = none) :
    repairMissingPromptLines aligned (some p) d = ⟨aligned, 0⟩ := by
  unfold repairMissingPromptLines
  dsimp only
  simp only [Option.getD_some]
  split
  · rfl
  · split
    · rfl
    · rw [hnone]

/-- When repair does insert lines, every original line whose sanitized text is
non-empty survives, in order, in the rebuilt output. -/
theorem repairMissingPromptLines_sublist (aligned : List LineTiming)
    (prompt : Option String) (durationS : Option ℚ)
    (h : 0 < (repairMissingPromptLines aligned prompt durationS).insertedCount) :
    ((aligned.map fun l => sanitizeLyricText l.text).filter (fun t => t ≠ "")).Sublist
      ((repairMissingPromptLines aligned prompt durationS).lines.map
        (fun x => x.text)) := by
  rcases repairMissingPromptLines_cases aligned prompt durationS with
    hc | ⟨st, n, hc, hn, hsub⟩
  · rw [hc] at h
    exact absurd h (by norm_num)
  · rw [hc]
    dsimp only
    rw [buildLineTimingsFromStarts_texts]
    have hmapped := hsub.map sanitizeLyricText
    have hL : (aligned.map fun l => sanitizeLyricText l.text).map sanitizeLyricText =
        aligned.map fun l => sanitizeLyricText l.text := by
      rw [List.map_map]
      refine List.map_congr_left ?_
      intro a _
      exact sanitizeLyricText_idem a.text
    have hR : (st.map fun e => e.text).map sanitizeLyricText =
        st.map fun l => sanitizeLyricText l.text := by
      rw [List.map_map]
      rfl
    rw [hL, hR] at hmapped
    exact hmapped.filter _

/-! ## The delivered pipeline decomposes into its stages -/

/-- The delivered output is the repair stage applied to the normalization of
the selected-and-expanded timings: normalization runs before repair. -/
theorem runPipeline_decomposition (alignedLyrics : List AlignedLine)
    (prompt : Option String) (durationHint : JsDuration)
    (waveformData : Option (List (Option ℚ))) (rpow54 : ℚ → ℚ) :
    runPipeline alignedLyrics prompt durationHint waveformData rpow54 =
      (repairMissingPromptLines
        (normalizeTimings
          (selectAndExpandTimings alignedLyrics durationHint.toFinite? waveformData
            rpow54).1
          durationHint.toFinite?)
        prompt durationHint.toFinite?).lines := rfl

theorem runPipeline_sorted (alignedLyrics : List AlignedLine) (prompt : Option String)
    (durationHint : JsDuration) (waveformData : Option (List (Option ℚ)))
    (rpow54 : ℚ → ℚ) :
    List.Pairwise (· ≤ ·)
      ((runPipeline alignedLyrics prompt durationHint waveformData rpow54).map
        (fun x => x.start_s)) ∧
    ∀ x ∈ runPipeline alignedLyrics prompt durationHint waveformData rpow54,
      x.start_s + 1/50 ≤ x.end_s := by
  rw [runPipeline_decomposition]
  rcases repairMissingPromptLines_cases
      (normalizeTimings
        (selectAndExpandTimings alignedLyrics durationHint.toFinite? waveformData
          rpow54).1
        durationHint.toFinite?)
      prompt durationHint.toFinite? with hc | ⟨st, n, hc, _, _⟩
  · rw [hc]
    exact ⟨normalizeTimings_pairwise _ _, normalizeTimings_gap _ _⟩
  · rw [hc]
    exact ⟨buildLineTimingsFromStarts_pairwise _ _, buildLineTimingsFromStarts_gap _ _⟩

theorem runPipeline_bounds (alignedLyrics : List AlignedLine) (prompt : Option String)
    (D : ℚ) (hD : 0 < D) (waveformData : Option (List (Option ℚ)))
    (rpow54 : ℚ → ℚ) :
    ∀ x ∈ runPipeline alignedLyrics prompt (JsDuration.finite D) waveformData rpow54,
      0 ≤ x.start_s ∧ x.start_s ≤ D + 1/2000 ∧ 0 ≤ x.end_s ∧ x.end_s ≤ D + 21/1000 := by
  rw [runPipeline_decomposition]
  rcases repairMissingPromptLines_cases
      (normalizeTimings
        (selectAndExpandTimings alignedLyrics (JsDuration.finite D).toFinite?
          waveformData rpow54).1
        (JsDuration.finite D).toFinite?)
      prompt (JsDuration.finite D).toFinite? with hc | ⟨st, n, hc, _, _⟩
  · rw [hc]
    exact normalizeTimings_bounds _ D hD
  · rw [hc]
    exact buildLineTimingsFromStarts_bounds _ D hD

/-! ## The best-candidate fold of inferScale -/

theorem inferScaleFold_spec (m d : ℚ) (l : List ℚ) :
    ∀ a : ℚ,
      (l.foldl (inferScaleStep m d) (a, some (|m * a - d| / d))).2 =
        some (|m * (l.foldl (inferScaleStep m d) (a, some (|m * a - d| / d))).1 - d| / d) ∧
      ((l.foldl (inferScaleStep m d) (a, some (|m * a - d| / d))).1 = a ∨
        (l.foldl (inferScaleStep m d) (a, some (|m * a - d| / d))).1 ∈ l) ∧
      (|m * (l.foldl (inferScaleStep m d) (a, some (|m * a - d| / d))).1 - d| / d ≤
        |m * a - d| / d) ∧
      ∀ s ∈ l,
        |m * (l.foldl (inferScaleStep m d) (a, some (|m * a - d| / d))).1 - d| / d ≤
          |m * s - d| / d := by
  induction l with
  | nil =>
    intro a
    refine ⟨rfl, Or.inl rfl, le_refl _, ?_⟩
    intro s hs; cases hs
  | cons c cs ih =>
    intro a
    have hstep : inferScaleStep m d (a, some (|m * a - d| / d)) c =
        if |m * c - d| / d < |m * a - d| / d then (c, some (|m * c - d| / d))
        else (a, some (|m * a - d| / d)) := rfl
    rw [List.foldl_cons, hstep]
    by_cases hcd : |m * c - d| / d < |m * a - d| / d
    · rw [if_pos hcd]
      obtain ⟨h1, h2, h3, h4⟩ := ih c
      refine ⟨h1, Or.inr ?_, le_trans h3 (le_of_lt hcd), ?_⟩
      · rcases h2 with h | h
        · rw [h]; exact List.mem_cons_self _ _
        · exact List.mem_cons_of_mem _ h
      · intro s hs
        rcases List.mem_cons.mp hs with h | h
        · subst h
          exact h3
        · exact h4 s h
    · rw [if_neg hcd]
      obtain ⟨h1, h2, h3, h4⟩ := ih a
      refine ⟨h1, ?_, h3, ?_⟩
      · rcases h2 with h | h
        · exact Or.inl h
        · exact Or.inr (List.mem_cons_of_mem _ h)
      · intro s hs
        rcases List.mem_cons.mp hs with h | h
        · rw [h]
          exact le_trans h3 (le_of_not_lt hcd)
        · exact h4 s h

theorem inferScale_minimizer (times : List ℚ) (d m : ℚ)
    (hmax : maxList? times = some m) (hd : 0 < d) :
    ((∃ s ∈ scaleCandidates, |m * s - d| / d ≤ 1/4) →
      inferScale times (some d) ∈ scaleCandidates ∧
      ∀ s ∈ scaleCandidates,
        |m * inferScale times (some d) - d| / d ≤ |m * s - d| / d) ∧
    ((∀ s ∈ scaleCandidates, ¬ (|m * s - d| / d ≤ 1/4)) →
      inferScale times (some d) = 1) := by
  unfold inferScale
  rw [hmax]
  dsimp only
  rw [if_neg (not_le.mpr hd)]
  have hexp : scaleCandidates.foldl (inferScaleStep m d) (1, none) =
      [1/10, 1/100, 1/1000, 10, 100].foldl (inferScaleStep m d)
        (1, some (|m * 1 - d| / d)) := rfl
  rw [hexp]
  obtain ⟨h1, h2, h3, h4⟩ := inferScaleFold_spec m d [1/10, 1/100, 1/1000, 10, 100] 1
  rw [h1]
  dsimp only
  have hmemAll :
      ([1/10, 1/100, 1/1000, 10, 100].foldl (inferScaleStep m d)
        (1, some (|m * 1 - d| / d))).1 ∈ scaleCandidates := by
    rcases h2 with h | h
    · rw [h]; exact List.mem_cons_self _ _
    · exact List.mem_cons_of_mem _ h
  have hminAll : ∀ s ∈ scaleCandidates,
      |m * ([1/10, 1/100, 1/1000, 10, 100].foldl (inferScaleStep m d)
        (1, some (|m * 1 - d| / d))).1 - d| / d ≤ |m * s - d| / d := by
    intro s hs
    rcases List.mem_cons.mp hs with h | h
    · rw [h]; exact h3
    · exact h4 s h
  constructor
  · rintro ⟨s0, hs0, hdev⟩
    split_ifs with hbd
    · exact ⟨hmemAll, hminAll⟩
    · exact absurd (le_trans (hminAll s0 hs0) hdev) hbd
  · intro hall
    split_ifs with hbd
    · exact absurd hbd (hall _ hmemAll)
    · rfl

theorem inferScale_absent (times : List ℚ) (m : ℚ) (hmax : maxList? times = some m) :
    inferScale times none = if 1000 < m then 1/1000 else 1 := by
  unfold inferScale
  rw [hmax]
  dsimp only
  by_cases h1 : 10000 < m
  · rw [if_pos h1, if_pos (by linarith)]
  · rw [if_neg h1]

/-! ## The selection rule as the spec states it -/

/-- Modelled from the spec's words (for comparison with `chooseTimingSource`):
a candidate looks good when `validCount/total >= 0.7` and
`monotonicBreaks <= 1`. -/
def specLooksGood (score : TimingScore) (total : ℕ) : Prop :=
  (score.validCount : ℚ) / (total : ℚ) ≥ 7/10 ∧ score.monotonicBreaks ≤ 1

instance (score : TimingScore) (total : ℕ) : Decidable (specLooksGood score total) :=
  inferInstanceAs (Decidable (_ ∧ _))

/-- Modelled from the spec's words: prefer the token candidate if it looks
good and its break count is ≤ the line candidate's; otherwise prefer the line
candidate if it looks good or its valid ratio is ≥ the token candidate's;
otherwise default to the token candidate. -/
def specPreferredSource (wordScore lineScore : TimingScore) (total : ℕ) :
    TimingSource :=
  if specLooksGood wordScore total ∧
      wordScore.monotonicBreaks ≤ lineScore.monotonicBreaks then .words
  else if specLooksGood lineScore total ∨
      (lineScore.validCount : ℚ) / (total : ℚ) ≥
        (wordScore.validCount : ℚ) / (total : ℚ) then .lines
  else .words

theorem chooseTimingSource_timings (w l : List RawLineTiming) :
    ((chooseTimingSource w l).source = TimingSource.words →
      (chooseTimingSource w l).timings = w) ∧
    ((chooseTimingSource w l).source = TimingSource.lines →
      (chooseTimingSource w l).timings = l) := by
  unfold chooseTimingSource
  dsimp only
  split_ifs
  · exact ⟨(fun _ => rfl), (fun hh => nomatch hh)⟩
  · exact ⟨(fun hh => nomatch hh), (fun _ => rfl)⟩
  · exact ⟨(fun _ => rfl), (fun hh => nomatch hh)⟩

theorem chooseTimingSource_source_spec (w l : List RawLineTiming)
    (h : w.length = l.length) :
    (chooseTimingSource w l).source =
      specPreferredSource (scoreTimings w) (scoreTimings l) w.length := by
  unfold chooseTimingSource specPreferredSource specLooksGood
  dsimp only
  by_cases h0 : w.length = 0
  · have hw : w = [] := List.length_eq_zero.mp h0
    have hl : l = [] := List.length_eq_zero.mp (by omega)
    subst hw; subst hl
    norm_num [scoreTimings, scoreStep]
  · have hmax : max w.length 1 = w.length := by omega
    rw [hmax]
    split_ifs with h1 h2 h3 h4 h5 h6
    · rfl
    · obtain ⟨hWG, hdisj⟩ := h1
      have hnb : ¬((scoreTimings w).monotonicBreaks ≤ (scoreTimings l).monotonicBreaks) :=
        fun hb => h2 ⟨hWG, hb⟩
      rcases hdisj with hnLG | hb
      · rcases h3 with hLG | hge
        · exact hnLG hLG
        · have hwb := hWG.2
          have hlB : (scoreTimings l).monotonicBreaks ≤ 1 := by omega
          have hlr : ¬(((scoreTimings l).validCount : ℚ) / (w.length : ℚ) ≥ 7/10) :=
            fun hr => hnLG ⟨hr, hlB⟩
          push_neg at hlr
          have hwr := hWG.1
          linarith
      · exact hnb hb
    · rfl
    · exact absurd (⟨h5.1, Or.inr h5.2⟩ :
        ((((scoreTimings w).validCount : ℚ) / (w.length : ℚ) ≥ 7/10 ∧
          (scoreTimings w).monotonicBreaks ≤ 1) ∧
          (¬(((scoreTimings l).validCount : ℚ) / (w.length : ℚ) ≥ 7/10 ∧
            (scoreTimings l).monotonicBreaks ≤ 1) ∨
          (scoreTimings w).monotonicBreaks ≤ (scoreTimings l).monotonicBreaks))) h1
    · rfl
    · rfl
    · rfl

/-- Non-finite duration hints are indistinguishable from an absent hint:
every read of the hint in the source is `isFiniteNumber`-guarded. -/
theorem runPipeline_nonfinite_hint (alignedLyrics : List AlignedLine)
    (prompt : Option String) (waveformData : Option (List (Option ℚ)))
    (rpow54 : ℚ → ℚ) (v : JsDuration) (h : v.toFinite? = none) :
    runPipeline alignedLyrics prompt v waveformData rpow54 =
      runPipeline alignedLyrics prompt JsDuration.undef waveformData rpow54 := by
  unfold runPipeline
  rw [h]
  rfl

/-! ## The claims -/

/-- C1: for every input sequence of raw line timings and every (possibly
absent) duration hint, the committed output has non-decreasing `start_s`
values and every entry satisfies `end_s ≥ start_s + 0.02` — for the values
actually emitted after millisecond rounding, on the `normalizeTimings` path,
on the `buildLineTimingsFromStarts` path used after repair inserts lines,
and for the composed pipeline output. -/
theorem claim_C1_invariants (lines : List RawLineTiming) (starts : List StartEntry)
    (durationS : Option ℚ) (alignedLyrics : List AlignedLine)
    (prompt : Option String) (durationHint : JsDuration)
    (waveformData : Option (List (Option ℚ))) (rpow54 : ℚ → ℚ) :
    (List.Pairwise (· ≤ ·)
        ((normalizeTimings lines durationS).map (fun x => x.start_s)) ∧
      ∀ x ∈ normalizeTimings lines durationS, x.start_s + 1/50 ≤ x.end_s) ∧
    (List.Pairwise (· ≤ ·)
        ((buildLineTimingsFromStarts starts durationS).map (fun x => x.start_s)) ∧
      ∀ x ∈ buildLineTimingsFromStarts starts durationS,
        x.start_s + 1/50 ≤ x.end_s) ∧
    (List.Pairwise (· ≤ ·)
        ((runPipeline alignedLyrics prompt durationHint waveformData rpow54).map
          (fun x => x.start_s)) ∧
      ∀ x ∈ runPipeline alignedLyrics prompt durationHint waveformData rpow54,
        x.start_s + 1/50 ≤ x.end_s) :=
  ⟨⟨normalizeTimings_pairwise _ _, normalizeTimings_gap _ _⟩,
    ⟨buildLineTimingsFromStarts_pairwise _ _, buildLineTimingsFromStarts_gap _ _⟩,
    runPipeline_sorted _ _ _ _ _⟩

/-- C2 counterexample: with a supplied positive duration `D = 0.0105`, the
single committed entry has `start_s = 0.011 > D` (millisecond rounding) and
`end_s = 0.031 > D` (the 20ms minimum-gap enforcement applied after the
duration clamp), so not every start/end lies in `[0, D]`. -/
theorem claim_C2_counterexample :
    normalizeTimings [⟨"a", some 1, some 2⟩] (some (21/2000)) =
      [⟨"a", 11/1000, 31/1000⟩] ∧
    ¬ (∀ x ∈ normalizeTimings [⟨"a", some 1, some 2⟩] (some (21/2000)),
      x.start_s ≤ 21/2000 ∧ x.end_s ≤ 21/2000) :=
  ⟨by with_unfolding_all rfl, of_decide_eq_true (by with_unfolding_all rfl)⟩

/-- C2 (amended): for every input and every finite positive duration `D`,
every committed start lies in `[0, D + 0.0005]` and every committed end in
`[0, D + 0.021]`: the values may exceed `D` only through millisecond
rounding (at most 0.5ms) and through the 20ms minimum-gap enforcement,
which runs after the duration clamp. -/
theorem claim_C2_bounds_amended (lines : List RawLineTiming)
    (starts : List StartEntry) (alignedLyrics : List AlignedLine)
    (prompt : Option String) (waveformData : Option (List (Option ℚ)))
    (rpow54 : ℚ → ℚ) (D : ℚ) (hD : 0 < D) :
    (∀ x ∈ normalizeTimings lines (some D),
      0 ≤ x.start_s ∧ x.start_s ≤ D + 1/2000 ∧ 0 ≤ x.end_s ∧ x.end_s ≤ D + 21/1000) ∧
    (∀ x ∈ buildLineTimingsFromStarts starts (some D),
      0 ≤ x.start_s ∧ x.start_s ≤ D + 1/2000 ∧ 0 ≤ x.end_s ∧ x.end_s ≤ D + 21/1000) ∧
    (∀ x ∈ runPipeline alignedLyrics prompt (JsDuration.finite D) waveformData rpow54,
      0 ≤ x.start_s ∧ x.start_s ≤ D + 1/2000 ∧ 0 ≤ x.end_s ∧ x.end_s ≤ D + 21/1000) :=
  ⟨normalizeTimings_bounds _ D hD, buildLineTimingsFromStarts_bounds _ D hD,
    runPipeline_bounds _ _ D hD _ _⟩

theorem claim_C2_witness :
    (0 : ℚ) < 10 ∧
    ∀ x ∈ normalizeTimings [⟨"a", some 1, some 2⟩] (some 10),
      0 ≤ x.start_s ∧ x.start_s ≤ 10 + 1/2000 ∧ 0 ≤ x.end_s ∧
        x.end_s ≤ 10 + 21/1000 :=
  ⟨by norm_num,
    (claim_C2_bounds_amended [⟨"a", some 1, some 2⟩] [] [] none none (fun q => q) 10
      (by norm_num)).1⟩

/-- C3: for every non-empty list of finite timestamps (with maximum `m`) and
every finite positive duration `d`, `inferScale` returns a multiplier from
`{1, 0.1, 0.01, 0.001, 10, 100}` minimizing the relative deviation
`|m·s − d| / d`, accepted only when some candidate deviates by at most 0.25
and otherwise 1; without a known duration it returns 0.001 iff the maximum
exceeds 1000, else 1; and max timestamp 1530 with duration 153 yields 0.1. -/
theorem claim_C3_scale_inference (times : List ℚ) (d m : ℚ)
    (hmax : maxList? times = some m) (hd : 0 < d) :
    ((∃ s ∈ scaleCandidates, |m * s - d| / d ≤ 1/4) →
      inferScale times (some d) ∈ scaleCandidates ∧
      ∀ s ∈ scaleCandidates,
        |m * inferScale times (some d) - d| / d ≤ |m * s - d| / d) ∧
    ((∀ s ∈ scaleCandidates, ¬ (|m * s - d| / d ≤ 1/4)) →
      inferScale times (some d) = 1) ∧
    (inferScale times none = if 1000 < m then 1/1000 else 1) ∧
    inferScale [1530] (some 153) = 1/10 :=
  ⟨(inferScale_minimizer times d m hmax hd).1,
    (inferScale_minimizer times d m hmax hd).2,
    inferScale_absent times m hmax,
    by with_unfolding_all rfl⟩

theorem claim_C3_witness :
    inferScale [1530] (some 153) = 1/10 ∧
    inferScale [1530] none = (if (1000 : ℚ) < 1530 then 1/1000 else 1) :=
  ⟨(claim_C3_scale_inference [1530] 153 1530 rfl (by norm_num)).2.2.2,
    (claim_C3_scale_inference [1530] 153 1530 rfl (by norm_num)).2.2.1⟩

set_option maxRecDepth 1000000 in
/-- C4 counterexample: on the stated scenario (two zero-timed lines, duration
10, envelope `[0,0,5,5,5,0,0,0,0,0]`) the detected activity window spans
only 5 samples, fewer than 8, so the aligner aborts to uniform expansion —
the envelope-guided expansion is NOT used, and the lines land at
`[0,5]`/`[5,10]`, outside the indices-2–4 region. -/
theorem claim_C4_counterexample :
    (alignRelativeTimingsWithWaveform (fun q => q)
      [⟨"Hello", some 0, some 0⟩, ⟨"World", some 0, some 0⟩] 10
      (some [some 0, some 0, some 5, some 5, some 5, some 0, some 0, some 0,
        some 0, some 0])).usedWaveform = false ∧
    (alignRelativeTimingsWithWaveform (fun q => q)
      [⟨"Hello", some 0, some 0⟩, ⟨"World", some 0, some 0⟩] 10
      (some [some 0, some 0, some 5, some 5, some 5, some 0, some 0, some 0,
        some 0, some 0])).lines =
      [⟨"Hello", some 0, some 5⟩, ⟨"World", some 5, some 10⟩] :=
  ⟨by with_unfolding_all rfl, by with_unfolding_all rfl⟩

set_option maxRecDepth 1000000 in
/-- C4 (amended): on the stated scenario relative timing is detected
(mostly-zero starts), but because the detected envelope window spans fewer
than 8 samples the aligner falls back to uniform expansion (for any model of
`Math.pow`); the committed output is `Hello@[0,5]`, `World@[5,10]` — still
non-decreasing, within `[0,10]`, with the 20ms gap honored — but not placed
inside the indices-2–4 activity region. -/
theorem claim_C4_envelope_amended (rpow54 : ℚ → ℚ) :
    looksLikeRelativeLineTimings
      [⟨"Hello", some 0, some 0⟩, ⟨"World", some 0, some 0⟩] (some 10) = true ∧
    alignRelativeTimingsWithWaveform rpow54
      [⟨"Hello", some 0, some 0⟩, ⟨"World", some 0, some 0⟩] 10
      (some [some 0, some 0, some 5, some 5, some 5, some 0, some 0, some 0,
        some 0, some 0]) =
      ⟨[⟨"Hello", some 0, some 5⟩, ⟨"World", some 5, some 10⟩], false⟩ ∧
    (buildAlignedLyricsTimings
      [{ text := some "Hello", start_s := some 0, end_s := some 0 },
        { text := some "World", start_s := some 0, end_s := some 0 }] (some 10)
      (some [some 0, some 0, some 5, some 5, some 5, some 0, some 0, some 0,
        some 0, some 0]) rpow54).lines =
      [⟨"Hello", 0, 5⟩, ⟨"World", 5, 10⟩] ∧
    (buildAlignedLyricsTimings
      [{ text := some "Hello", start_s := some 0, end_s := some 0 },
        { text := some "World", start_s := some 0, end_s := some 0 }] (some 10)
      (some [some 0, some 0, some 5, some 5, some 5, some 0, some 0, some 0,
        some 0, some 0]) rpow54).relativeMethod = RelativeMethod.linear := by
  have h2 : alignRelativeTimingsWithWaveform rpow54
      [⟨"Hello", some 0, some 0⟩, ⟨"World", some 0, some 0⟩] 10
      (some [some 0, some 0, some 5, some 5, some 5, some 0, some 0, some 0,
        some 0, some 0]) =
      ⟨[⟨"Hello", some 0, some 5⟩, ⟨"World", some 5, some 10⟩], false⟩ := by
    with_unfolding_all rfl
  have hstage : selectAndExpandTimings
      [{ text := some "Hello", start_s := some 0, end_s := some 0 },
        { text := some "World", start_s := some 0, end_s := some 0 }] (some 10)
      (some [some 0, some 0, some 5, some 5, some 5, some 0, some 0, some 0,
        some 0, some 0]) rpow54 =
      ((alignRelativeTimingsWithWaveform rpow54
          [⟨"Hello", some 0, some 0⟩, ⟨"World", some 0, some 0⟩] 10
          (some [some 0, some 0, some 5, some 5, some 5, some 0, some 0, some 0,
            some 0, some 0])).lines,
        TimingSource.words, ⟨2, 0⟩, true,
        if (alignRelativeTimingsWithWaveform rpow54
            [⟨"Hello", some 0, some 0⟩, ⟨"World", some 0, some 0⟩] 10
            (some [some 0, some 0, some 5, some 5, some 5, some 0, some 0, some 0,
              some 0, some 0])).usedWaveform then RelativeMethod.waveform
        else RelativeMethod.linear) := by
    with_unfolding_all rfl
  refine ⟨by with_unfolding_all rfl, h2, ?_, ?_⟩
  · have hlines : (buildAlignedLyricsTimings
        [{ text := some "Hello", start_s := some 0, end_s := some 0 },
          { text := some "World", start_s := some 0, end_s := some 0 }] (some 10)
        (some [some 0, some 0, some 5, some 5, some 5, some 0, some 0, some 0,
          some 0, some 0]) rpow54).lines =
        normalizeTimings (selectAndExpandTimings
          [{ text := some "Hello", start_s := some 0, end_s := some 0 },
            { text := some "World", start_s := some 0, end_s := some 0 }] (some 10)
          (some [some 0, some 0, some 5, some 5, some 5, some 0, some 0, some 0,
            some 0, some 0]) rpow54).1 (some 10) := rfl
    rw [hlines, hstage, h2]
    with_unfolding_all rfl
  · have hmeth : (buildAlignedLyricsTimings
        [{ text := some "Hello", start_s := some 0, end_s := some 0 },
          { text := some "World", start_s := some 0, end_s := some 0 }] (some 10)
        (some [some 0, some 0, some 5, some 5, some 5, some 0, some 0, some 0,
          some 0, some 0]) rpow54).relativeMethod =
        (selectAndExpandTimings
          [{ text := some "Hello", start_s := some 0, end_s := some 0 },
            { text := some "World", start_s := some 0, end_s := some 0 }] (some 10)
          (some [some 0, some 0, some 5, some 5, some 5, some 0, some 0, some 0,
            some 0, some 0]) rpow54).2.2.2.2 := rfl
    rw [hmeth, hstage, h2]
    rfl

set_option maxRecDepth 1000000 in
/-- C5 counterexample: an input on which the delivered output is NOT the
normalization of the repair stage's result: repairing inserts a line "B" and
the delivered timeline's maximum time (12) is far below the duration (100),
so re-normalizing it would rescale everything by 10 — the pipeline applies
normalization BEFORE repair, not after. -/
theorem claim_C5_counterexample :
    runPipeline [{ text := some "A", start_s := some 0, end_s := some 40 },
        { text := some "C", start_s := some 8, end_s := some 40 }]
      (some "A\nB\nC") (JsDuration.finite 100) none (fun q => q) =
      [⟨"A", 0, 73/10⟩, ⟨"B", 73/10, 8⟩, ⟨"C", 8, 12⟩] ∧
    runPipeline [{ text := some "A", start_s := some 0, end_s := some 40 },
        { text := some "C", start_s := some 8, end_s := some 40 }]
      (some "A\nB\nC") (JsDuration.finite 100) none (fun q => q) ≠
    normalizeTimings
      ((runPipeline [{ text := some "A", start_s := some 0, end_s := some 40 },
          { text := some "C", start_s := some 8, end_s := some 40 }]
        (some "A\nB\nC") (JsDuration.finite 100) none (fun q => q)).map
        LineTiming.toRaw) (some 100) :=
  ⟨by with_unfolding_all rfl, of_decide_eq_true (by with_unfolding_all rfl)⟩

/-- C5 (amended): the pipeline composes select → infer-scale/detect-relative
→ expand → NORMALIZE → REPAIR: the output delivered for a track equals the
repair stage applied to the normalization stage's result (normalization is
not re-applied after repair). -/
theorem claim_C5_order_amended (alignedLyrics : List AlignedLine)
    (prompt : Option String) (durationHint : JsDuration)
    (waveformData : Option (List (Option ℚ))) (rpow54 : ℚ → ℚ) :
    runPipeline alignedLyrics prompt durationHint waveformData rpow54 =
      (repairMissingPromptLines
        (normalizeTimings
          (selectAndExpandTimings alignedLyrics durationHint.toFinite? waveformData
            rpow54).1
          durationHint.toFinite?)
        prompt durationHint.toFinite?).lines := rfl

set_option maxRecDepth 1000000 in
/-- C6 counterexample: every resolved line matches a distinct, in-order
reference line (indices 1 and 2 of the prompt "X/A/B"), yet repair inserts
the unmatched leading reference line "X": `insertedCount = 1 ≠ 0` and the
output differs from the input. -/
theorem claim_C6_counterexample :
    repairMatchedIndexes [⟨"A", 0, 2⟩, ⟨"B", 5, 7⟩] "X\nA\nB" =
      [some 1, some 2] ∧
    (∀ o ∈ repairMatchedIndexes [⟨"A", 0, 2⟩, ⟨"B", 5, 7⟩] "X\nA\nB", o.isSome) ∧
    (repairMissingPromptLines [⟨"A", 0, 2⟩, ⟨"B", 5, 7⟩] (some "X\nA\nB")
      none).insertedCount = 1 ∧
    (repairMissingPromptLines [⟨"A", 0, 2⟩, ⟨"B", 5, 7⟩] (some "X\nA\nB")
      none).lines ≠ [⟨"A", 0, 2⟩, ⟨"B", 5, 7⟩] :=
  ⟨by with_unfolding_all rfl, of_decide_eq_true (by with_unfolding_all rfl),
    by with_unfolding_all rfl, of_decide_eq_true (by with_unfolding_all rfl)⟩

/-- C6 (amended): if the greedy matcher matches the i-th resolved line to
reference line i for every i (so no reference line is skipped at the front
or between matches), then `insertedCount = 0` and the output equals the
input. -/
theorem claim_C6_noop_amended (aligned : List LineTiming) (p : String)
    (d : Option ℚ)
    (hmatch : repairMatchedIndexes aligned p =
      (List.range aligned.length).map some) :
    repairMissingPromptLines aligned (some p) d = ⟨aligned, 0⟩ :=
  repairMissingPromptLines_noop aligned p d hmatch

set_option maxRecDepth 1000000 in
theorem claim_C6_witness :
    repairMissingPromptLines [⟨"A", 0, 2⟩, ⟨"B", 5, 7⟩] (some "A\nB") none =
      ⟨[⟨"A", 0, 2⟩, ⟨"B", 5, 7⟩], 0⟩ :=
  claim_C6_noop_amended [⟨"A", 0, 2⟩, ⟨"B", 5, 7⟩] "A\nB" none
    (by with_unfolding_all rfl)

set_option maxRecDepth 1000000 in
/-- C7 counterexample: repair is not fully preserving the original lines:
an original line with empty text (here the second line `""`) is dropped by
`buildLineTimingsFromStarts` when repair rebuilds the sequence, so "every
original line is preserved in order" fails as stated. -/
theorem claim_C7_counterexample :
    (repairMissingPromptLines [⟨"A", 0, 2⟩, ⟨"", 5, 11/2⟩, ⟨"C", 8, 9⟩]
      (some "A\nB\nC") none).insertedCount = 1 ∧
    (repairMissingPromptLines [⟨"A", 0, 2⟩, ⟨"", 5, 11/2⟩, ⟨"C", 8, 9⟩]
      (some "A\nB\nC") none).lines.map (fun x => x.text) = ["A", "B", "C"] ∧
    "" ∈ ([⟨"A", 0, 2⟩, ⟨"", 5, 11/2⟩, ⟨"C", 8, 9⟩] : List LineTiming).map
      (fun x => x.text) ∧
    "" ∉ (repairMissingPromptLines [⟨"A", 0, 2⟩, ⟨"", 5, 11/2⟩, ⟨"C", 8, 9⟩]
      (some "A\nB\nC") none).lines.map (fun x => x.text) :=
  ⟨by with_unfolding_all rfl, by with_unfolding_all rfl,
    of_decide_eq_true (by with_unfolding_all rfl),
    of_decide_eq_true (by with_unfolding_all rfl)⟩

/-- C7 (amended): repair is strictly additive: with no foothold in the
reference text it returns the untouched input; with zero insertions it
returns the untouched input; and whenever lines are inserted, every original
line whose sanitized text is non-empty is preserved, in order, in the
output (empty-text originals are dropped by the rebuild). -/
theorem claim_C7_additive_amended (aligned : List LineTiming) (p : String)
    (prompt : Option String) (durationS : Option ℚ) :
    ((repairMatchedIndexes aligned p).findIdx? (fun idx => idx.isSome) = none →
      repairMissingPromptLines aligned (some p) durationS = ⟨aligned, 0⟩) ∧
    ((repairMissingPromptLines aligned prompt durationS).insertedCount = 0 →
      (repairMissingPromptLines aligned prompt durationS).lines = aligned) ∧
    (0 < (repairMissingPromptLines aligned prompt durationS).insertedCount →
      ((aligned.map fun l => sanitizeLyricText l.text).filter
        (fun t => t ≠ "")).Sublist
        ((repairMissingPromptLines aligned prompt durationS).lines.map
          (fun x => x.text))) :=
  ⟨repairMissingPromptLines_no_foothold aligned p durationS,
    repairMissingPromptLines_inserted_zero aligned prompt durationS,
    repairMissingPromptLines_sublist aligned prompt durationS⟩

set_option maxRecDepth 1000000 in
theorem claim_C7_witness :
    repairMissingPromptLines [⟨"A", 0, 1⟩, ⟨"B", 2, 3⟩] (some "zzz") none =
      ⟨[⟨"A", 0, 1⟩, ⟨"B", 2, 3⟩], 0⟩ ∧
    (repairMissingPromptLines [⟨"A", 0, 1⟩, ⟨"B", 2, 3⟩] (some "zzz") none).lines =
      [⟨"A", 0, 1⟩, ⟨"B", 2, 3⟩] ∧
    ((([⟨"A", 0, 2⟩, ⟨"", 5, 11/2⟩, ⟨"C", 8, 9⟩] : List LineTiming).map
      fun l => sanitizeLyricText l.text).filter (fun t => t ≠ "")).Sublist
      ((repairMissingPromptLines [⟨"A", 0, 2⟩, ⟨"", 5, 11/2⟩, ⟨"C", 8, 9⟩]
        (some "A\nB\nC") none).lines.map (fun x => x.text)) :=
  ⟨(claim_C7_additive_amended [⟨"A", 0, 1⟩, ⟨"B", 2, 3⟩] "zzz" (some "zzz") none).1
      (by with_unfolding_all rfl),
    (claim_C7_additive_amended [⟨"A", 0, 1⟩, ⟨"B", 2, 3⟩] "zzz" (some "zzz") none).2.1
      (by with_unfolding_all rfl),
    (claim_C7_additive_amended [⟨"A", 0, 2⟩, ⟨"", 5, 11/2⟩, ⟨"C", 8, 9⟩] "A\nB\nC"
        (some "A\nB\nC") none).2.2
      (of_decide_eq_true (by with_unfolding_all rfl))⟩

set_option maxRecDepth 1000000 in
/-- C8 counterexample: a zero duration hint is not treated as absent: with
`finite 0` the normalizer clamps the single line to `[0, 0.02]`, while with
an absent hint the line keeps its `[1, 2]` bounds. -/
theorem claim_C8_counterexample :
    runPipeline [{ text := some "A", start_s := some 1, end_s := some 2 }] none
        (JsDuration.finite 0) none (fun q => q) ≠
      runPipeline [{ text := some "A", start_s := some 1, end_s := some 2 }] none
        JsDuration.undef none (fun q => q) ∧
    runPipeline [{ text := some "A", start_s := some 1, end_s := some 2 }] none
        (JsDuration.finite 0) none (fun q => q) = [⟨"A", 0, 1/50⟩] ∧
    runPipeline [{ text := some "A", start_s := some 1, end_s := some 2 }] none
        JsDuration.undef none (fun q => q) = [⟨"A", 1, 2⟩] :=
  ⟨of_decide_eq_true (by with_unfolding_all rfl),
    by with_unfolding_all rfl, by with_unfolding_all rfl⟩

/-- C8 (amended): a NON-FINITE duration hint (NaN or ±Infinity) produces
exactly the same pipeline output as an absent hint — every read of the hint
is `isFiniteNumber`-guarded — but zero or negative finite hints are not
treated as absent: they still drive the duration clamping of the
normalizer. -/
theorem claim_C8_hint_amended (alignedLyrics : List AlignedLine)
    (prompt : Option String) (waveformData : Option (List (Option ℚ)))
    (rpow54 : ℚ → ℚ) (v : JsDuration) (h : v.toFinite? = none) :
    runPipeline alignedLyrics prompt v waveformData rpow54 =
      runPipeline alignedLyrics prompt JsDuration.undef waveformData rpow54 :=
  runPipeline_nonfinite_hint alignedLyrics prompt waveformData rpow54 v h

theorem claim_C8_witness :
    runPipeline [] none JsDuration.nan none (fun q => q) =
      runPipeline [] none JsDuration.undef none (fun q => q) :=
  claim_C8_hint_amended [] none none (fun q => q) JsDuration.nan rfl

/-- C9: for equal-length candidate sequences, `chooseTimingSource` implements
exactly the stated rule: a candidate looks good when `validCount/total ≥ 0.7`
and `monotonicBreaks ≤ 1`; the token candidate is preferred if it looks good
and its break count is ≤ the line candidate's; otherwise the line candidate
if it looks good or its valid ratio is ≥ the token candidate's; otherwise
the token candidate — and the returned timings are those of the returned
source. -/
theorem claim_C9_selection_rule (w l : List RawLineTiming)
    (h : w.length = l.length) :
    (chooseTimingSource w l).source =
      specPreferredSource (scoreTimings w) (scoreTimings l) w.length ∧
    ((chooseTimingSource w l).source = TimingSource.words →
      (chooseTimingSource w l).timings = w) ∧
    ((chooseTimingSource w l).source = TimingSource.lines →
      (chooseTimingSource w l).timings = l) :=
  ⟨chooseTimingSource_source_spec w l h, (chooseTimingSource_timings w l).1,
    (chooseTimingSource_timings w l).2⟩

theorem claim_C9_witness :
    (chooseTimingSource [⟨"a", some 0, some 1⟩] [⟨"b", none, none⟩]).source =
      specPreferredSource (scoreTimings [⟨"a", some 0, some 1⟩])
        (scoreTimings [⟨"b", none, none⟩])
        ([⟨"a", some 0, some 1⟩] : List RawLineTiming).length :=
  (claim_C9_selection_rule [⟨"a", some 0, some 1⟩] [⟨"b", none, none⟩] rfl).1

/-- C10: whenever the input contains at least one finite timestamp,
`normalizeTimings` returns a sequence of exactly the input's length whose
i-th text equals the i-th input text: the normalizer never drops, duplicates
or reorders lines, and never alters their text. -/
theorem claim_C10_frame (lines : List RawLineTiming) (durationS : Option ℚ)
    (h : ∃ line ∈ lines, line.start_s.isSome ∨ line.end_s.isSome) :
    (normalizeTimings lines durationS).length = lines.length ∧
    (normalizeTimings lines durationS).map (fun x => x.text) =
      lines.map (fun x => x.text) := by
  obtain ⟨line, hline, hsome⟩ := h
  have hne := collectTimes_ne_nil hline hsome
  have htexts := normalizeTimings_texts lines durationS hne
  refine ⟨?_, htexts⟩
  have hlen := congrArg List.length htexts
  simpa using hlen

theorem claim_C10_witness :
    (normalizeTimings [⟨"a", some 1, none⟩] none).length =
      ([⟨"a", some 1, none⟩] : List RawLineTiming).length ∧
    (normalizeTimings [⟨"a", some 1, none⟩] none).map (fun x => x.text) =
      ([⟨"a", some 1, none⟩] : List RawLineTiming).map (fun x => x.text) :=
  claim_C10_frame [⟨"a", some 1, none⟩] none
    ⟨⟨"a", some 1, none⟩, List.mem_singleton.mpr rfl, Or.inl rfl⟩

end SunoLyric










